import Mathlib

/-!
Verification development for the YouTube-to-Spotify playlist-transfer
repository.  The matching core (title normalisation, artist/title parsing,
search-query construction, candidate collection, lexical and semantic
similarity scoring, and the tier classification pipeline) is shallowly
embedded from the Python sources `utils.py`, `spotify_handler.py` and
`transfer.py`.  Python strings are modelled as `List Char`, floats as `ℚ`,
raised exceptions as `Except Unit`, and the external embedding model as
explicit function parameters.
-/

namespace Migrate

/-- Python `str.isspace`-style whitespace recognised by `re`'s `\s` and by
`str.strip()` for the ASCII range (space, tab, newline, carriage return,
vertical tab, form feed). -/
def isSpaceCh (c : Char) : Bool :=
  c = ' ' || c = '\t' || c = '\n' || c = '\r' || c = '\x0b' || c = '\x0c'

/-- Word characters for `re`'s `\b` word boundary (ASCII fragment of `\w`):
letters, digits and underscore. -/
def isWordCh (c : Char) : Bool :=
  c.isAlphanum || c = '_'

/-- ASCII lower-casing, as applied by `str.lower()` and by
`re.IGNORECASE` matching on the ASCII titles this program handles. -/
def lowerCh (c : Char) : Char :=
  if 'A' ≤ c ∧ c ≤ 'Z' then Char.ofNat (c.toNat + 32) else c

/-- Lower-case an entire character list (`str.lower()`). -/
def lowerStr (l : List Char) : List Char :=
  l.map lowerCh

/-- `str.strip()`: drop leading and trailing whitespace. -/
def stripStr (l : List Char) : List Char :=
  ((l.dropWhile isSpaceCh).reverse.dropWhile isSpaceCh).reverse

/-! ### `clean_youtube_title` (utils.py lines 271-303)

The function applies, in order: `re.sub(r'\[.*?\]', '', ·)`,
`re.sub(r'\(.*?\)', '', ·)`, one `re.sub(rf'\b{kw}\b', '', ·, IGNORECASE)`
per noise keyword, `[|]` and `[•●]` to `'-'`, `\s+` to one space, and
`str.strip()`. -/

/-- Helper for the non-greedy bracket patterns `\[.*?\]` / `\(.*?\)`:
scan for the first closing delimiter; `.` does not match a newline, so the
match fails if a newline appears first.  Returns the suffix after the
closing delimiter when the pattern matches. -/
def findClose (close : Char) : List Char → Option (List Char)
  | [] => none
  | c :: rest =>
    if c = close then some rest
    else if c = '\n' then none
    else findClose close rest

theorem findClose_length {close : Char} :
    ∀ {l rest : List Char}, findClose close l = some rest → rest.length < l.length := by
  intro l
  induction l with
  | nil => intro rest h; simp [findClose] at h
  | cons c cs ih =>
    intro rest h
    simp only [findClose] at h
    split at h
    · cases h; simp
    · split at h
      · cases h
      · exact Nat.lt_trans (ih h) (by simp)

/-- Fuelled scan for `re.sub(r'\[.*?\]', '', ·)` (and the parenthesis
variant): remove every non-overlapping occurrence of an opening delimiter
followed (with no intervening newline) by the nearest closing delimiter.
Each step consumes at least one character, so fuel `length + 1` always
suffices. -/
def removeDelimsF (opn close : Char) : Nat → List Char → List Char
  | 0, l => l
  | _ + 1, [] => []
  | fuel + 1, c :: rest =>
    if c = opn then
      match findClose close rest with
      | some rest' => removeDelimsF opn close fuel rest'
      | none => c :: removeDelimsF opn close fuel rest
    else c :: removeDelimsF opn close fuel rest

/-- `re.sub` for the bracket patterns, with sufficient fuel. -/
def removeDelims (opn close : Char) (l : List Char) : List Char :=
  removeDelimsF opn close (l.length + 1) l

/-- One element of a compiled keyword pattern: a literal character
(compared case-insensitively) or `re`'s `.` which matches any character
except a newline.  The unescaped dots in the keywords `ft.` and `feat.`
compile to `anyCh`. -/
inductive PatCh where
  | lit (c : Char)
  | anyCh
deriving DecidableEq

/-- Compile a keyword string into its pattern, turning `.` into the
any-character wildcard exactly as `rf'\b{keyword}\b'` does. -/
def compileKw (kw : List Char) : List PatCh :=
  kw.map fun c => if c = '.' then PatCh.anyCh else PatCh.lit c

/-- Match the fixed-length pattern against a prefix of the text, returning
the last matched character and the remaining suffix. -/
def matchPat : List PatCh → List Char → Option (Char × List Char)
  | [], _ => none
  | [p], c :: rest =>
    match p with
    | PatCh.lit d => if lowerCh c = lowerCh d then some (c, rest) else none
    | PatCh.anyCh => if c = '\n' then none else some (c, rest)
  | p :: ps, c :: rest =>
    match p with
    | PatCh.lit d => if lowerCh c = lowerCh d then matchPat ps rest else none
    | PatCh.anyCh => if c = '\n' then none else matchPat ps rest
  | _, [] => none

theorem matchPat_length {ps : List PatCh} :
    ∀ {l : List Char} {c : Char} {rest : List Char},
      matchPat ps l = some (c, rest) → rest.length < l.length := by
  induction ps with
  | nil => intro l c rest h; simp [matchPat] at h
  | cons p ps ih =>
    intro l c rest h
    match l with
    | [] => simp [matchPat] at h
    | x :: xs =>
      match ps, p with
      | [], PatCh.lit d =>
        simp only [matchPat] at h
        split at h
        · cases h; simp
        · cases h
      | [], PatCh.anyCh =>
        simp only [matchPat] at h
        split at h
        · cases h
        · cases h; simp
      | q :: qs, PatCh.lit d =>
        simp only [matchPat] at h
        split at h
        · exact Nat.lt_trans (ih h) (by simp)
        · cases h
      | q :: qs, PatCh.anyCh =>
        simp only [matchPat] at h
        split at h
        · cases h
        · exact Nat.lt_trans (ih h) (by simp)

/-- `\b` between two (optional) neighbouring characters: a word boundary
holds where wordness changes, with the ends of the string non-word. -/
def isBoundary (l r : Option Char) : Bool :=
  (match l with | none => false | some c => isWordCh c) ≠
  (match r with | none => false | some c => isWordCh c)

/-- `re.sub(rf'\b{kw}\b', '', text, flags=re.IGNORECASE)`: scan left to
right; at each position require a word boundary before the match, the
pattern characters, and a word boundary after; on success delete the match
and resume scanning after it (boundaries are judged on the original
characters, so `prev` tracks the character preceding the scan position). -/
def subKwAux (pat : List PatCh) : Nat → Option Char → List Char → List Char
  | 0, _, l => l
  | _ + 1, _, [] => []
  | fuel + 1, prev, x :: xs =>
    if isBoundary prev (some x) then
      match matchPat pat (x :: xs) with
      | some (last, rest) =>
        if isBoundary (some last) rest.head? then
          subKwAux pat fuel (some last) rest
        else
          x :: subKwAux pat fuel (some x) xs
      | none => x :: subKwAux pat fuel (some x) xs
    else
      x :: subKwAux pat fuel (some x) xs

/-- Remove every boundary-delimited occurrence of one keyword.  A match
consumes at least one character (keyword patterns are non-empty), so fuel
`length + 1` always suffices. -/
def subKw (kw : List Char) (l : List Char) : List Char :=
  subKwAux (compileKw kw) (l.length + 1) none l

/-- The noise-keyword list of `clean_youtube_title`, in source order. -/
def noiseKeywords : List (List Char) :=
  [ "official video".toList, "official audio".toList,
    "official music video".toList,
    "lyrics".toList, "lyric video".toList, "audio".toList, "video".toList,
    "hd".toList, "hq".toList, "4k".toList, "1080p".toList, "720p".toList,
    "official".toList, "original".toList, "explicit".toList,
    "music video".toList, "full album".toList, "full song".toList,
    "ft.".toList, "feat.".toList, "featuring".toList ]

/-- `re.sub(r'[|]', '-', ·)` then `re.sub(r'[•●]', '-', ·)`. -/
def replaceSeps (l : List Char) : List Char :=
  (l.map fun c => if c = '|' then '-' else c).map
    fun c => if c = '•' ∨ c = '●' then '-' else c

/-- `re.sub(r'\s+', ' ', ·)`: collapse each whitespace run to one space.
Fuelled scan; each step consumes at least one character. -/
def collapseWsF : Nat → List Char → List Char
  | 0, l => l
  | _ + 1, [] => []
  | fuel + 1, c :: rest =>
    if isSpaceCh c then ' ' :: collapseWsF fuel (rest.dropWhile isSpaceCh)
    else c :: collapseWsF fuel rest

/-- `re.sub(r'\s+', ' ', ·)` with sufficient fuel. -/
def collapseWs (l : List Char) : List Char :=
  collapseWsF (l.length + 1) l

/-- `clean_youtube_title` on character lists (utils.py lines 271-303). -/
def cleanTitleL (l : List Char) : List Char :=
  stripStr (collapseWs (replaceSeps
    (noiseKeywords.foldl (fun acc kw => subKw kw acc)
      (removeDelims '(' ')' (removeDelims '[' ']' l)))))

/-- `clean_youtube_title(title)` on strings. -/
def clean_youtube_title (s : String) : String :=
  String.mk (cleanTitleL s.toList)

/-! ### `parse_artist_title` (utils.py lines 306-342) -/

/-- `s.split(sep, 1)` restricted to the case the separator occurs: split at
the first occurrence, returning the parts before and after it.  `none`
when the separator does not occur (so `sep in s` is `splitOnce sep s ≠
none`). -/
def splitOnce (sep : List Char) : List Char → Option (List Char × List Char)
  | [] => none
  | c :: rest =>
    if (c :: rest).take sep.length = sep then
      some ([], (c :: rest).drop sep.length)
    else
      (splitOnce sep rest).map fun p => (c :: p.1, p.2)

/-- Number of leading whitespace characters (a maximal `\s+` run). -/
def wsRun (l : List Char) : Nat :=
  (l.takeWhile isSpaceCh).length

/-- Tail of the `by` pattern after its keyword: `\s+(.+)$`.  The greedy
`\s+` takes the whole leading whitespace run; `(.+)` then needs at least
one character, backtracking one whitespace character when nothing is left.
Inputs are outputs of `clean_youtube_title` and therefore newline-free, so
`.` matches any character and `$` is the end of the string.  Returns the
captured group. -/
def byTailGroup (rest : List Char) : Option (List Char) :=
  let w := wsRun rest
  if w = 0 then none
  else if w < rest.length then some (rest.drop w)
  else if 2 ≤ w then some (rest.drop (w - 1))
  else none

/-- After the lazy group of `^(.+?)\s+by\s+(.+)$`: match `\s+by` and then
the tail.  The greedy `\s+` is equivalent to taking the maximal whitespace
run, since backtracked shorter runs would leave a whitespace character
where `b` is required. -/
def byAfterSplit (rest : List Char) : Option (List Char) :=
  let w := wsRun rest
  if w = 0 then none
  else
    match rest.drop w with
    | b :: y :: rest2 =>
      if lowerCh b = 'b' ∧ lowerCh y = 'y' then byTailGroup rest2 else none
    | _ => none

/-- `re.search(r'^(.+?)\s+by\s+(.+)$', ·, re.IGNORECASE)`: the lazy first
group tries the shortest non-empty prefix first.  Returns the two captured
groups `(group1, group2)`. -/
def bySearchAux (accA : List Char) : List Char → Option (List Char × List Char)
  | [] => none
  | x :: xs =>
    match byAfterSplit xs with
    | some g2 => some (accA ++ [x], g2)
    | none => bySearchAux (accA ++ [x]) xs

/-- Entry point for the `by` pattern search. -/
def bySearch (l : List Char) : Option (List Char × List Char) :=
  bySearchAux [] l

/-- After the lazy group of `^(.+?)\s+["""](.+?)["""]`: match `\s+` (again
equivalent to the maximal run, since `"` is not whitespace), a double
quote, then the shortest non-empty run up to the next double quote.  The
character class `["""]` in the source is three ASCII double quotes, i.e.
just `"`. -/
def quoteAfterSplit (rest : List Char) : Option (List Char) :=
  let w := wsRun rest
  if w = 0 then none
  else
    match rest.drop w with
    | '"' :: inner =>
      match inner with
      | [] => none
      | c :: more =>
        (splitOnce ['"'] more).map fun p => c :: p.1
    | _ => none

/-- `re.search(r'^(.+?)\s+["""](.+?)["""]', ·)` with lazy groups; returns
`(group1, group2)`. -/
def quoteSearchAux (accA : List Char) : List Char → Option (List Char × List Char)
  | [] => none
  | x :: xs =>
    match quoteAfterSplit xs with
    | some g2 => some (accA ++ [x], g2)
    | none => quoteSearchAux (accA ++ [x]) xs

/-- Entry point for the quoted pattern search. -/
def quoteSearch (l : List Char) : Option (List Char × List Char) :=
  quoteSearchAux [] l

/-- The pattern cascade of `parse_artist_title` applied to the already
normalised title: try the four separator patterns in priority order,
returning on the first match; result is `(artist?, title)`. -/
def parseCleaned (cleaned : List Char) : Option (List Char) × List Char :=
  match splitOnce (" - ".toList) cleaned with
  | some (a, b) => (some (stripStr a), stripStr b)
  | none =>
    match splitOnce (": ".toList) cleaned with
    | some (a, b) => (some (stripStr a), stripStr b)
    | none =>
      match bySearch cleaned with
      | some (g1, g2) => (some (stripStr g2), stripStr g1)
      | none =>
        match quoteSearch cleaned with
        | some (g1, g2) => (some (stripStr g1), stripStr g2)
        | none => (none, cleaned)

/-- `parse_artist_title` on character lists: normalise first, then run the
pattern cascade. -/
def parseArtistTitleL (l : List Char) : Option (List Char) × List Char :=
  parseCleaned (cleanTitleL l)

/-- `parse_artist_title(video_title)` on strings. -/
def parse_artist_title (s : String) : Option String × String :=
  let r := parseArtistTitleL s.toList
  (r.1.map String.mk, String.mk r.2)

/-! ### `build_search_queries` (utils.py lines 345-372) -/

/-- The first two entries of `build_search_queries`: `f"{artist} {title}"`
and `f'artist:"{artist}" track:"{title}"'`, added only under Python's
`if artist and title:` (a non-`None`, non-empty artist and a non-empty
title). -/
def artistQueriesOf (p : Option (List Char) × List Char) : List (List Char) :=
  match p.1 with
  | some a =>
    if a ≠ [] ∧ p.2 ≠ [] then
      [a ++ ' ' :: p.2,
       "artist:\"".toList ++ a ++ "\" track:\"".toList ++ p.2 ++ ['"']]
    else []
  | none => []

/-- `if entry not in queries: queries.append(entry)`. -/
def appendIfAbsent {α : Type} [DecidableEq α] (l : List α) (x : α) : List α :=
  if x ∈ l then l else l ++ [x]

/-- `build_search_queries` on character lists. -/
def buildSearchQueriesL (l : List Char) : List (List Char) :=
  appendIfAbsent (appendIfAbsent (artistQueriesOf (parseArtistTitleL l)) (cleanTitleL l)) l

/-- `build_search_queries(video_title)` on strings. -/
def build_search_queries (s : String) : List String :=
  (buildSearchQueriesL s.toList).map String.mk

/-! ### `difflib.SequenceMatcher(None, a, b).ratio()` (used by
`similarity_score`, utils.py lines 375-386)

The embedding follows CPython's `difflib.py`: `__chain_b` builds `b2j`
(indices of each element of `b`, with "popular" elements removed when
`len(b) >= 200` — autojunk; `isjunk` is `None`, so the junk set is empty
and the junk-extension loops of `find_longest_match` never fire),
`find_longest_match` runs the `j2len` dynamic program and then extends the
best block by equal elements on both ends, and `ratio` sums the sizes of
all matching blocks found by recursive interval splitting. -/

/-- Positions of `c` in `b` (ascending), as stored in `b2j`. -/
def indicesOf (c : Char) (b : List Char) : List Nat :=
  (List.range b.length).filter fun i => b.getD i ' ' = c

/-- Autojunk: an element is popular when `len(b) >= 200` and it accounts
for more than `len(b) // 100 + 1` occurrences; popular elements are
removed from `b2j`. -/
def isPopular (b : List Char) (c : Char) : Bool :=
  200 ≤ b.length ∧ b.length / 100 + 1 < b.count c

/-- `b2j` lookup: occurrence positions of `c` in `b`, empty for popular
elements. -/
def b2jMap (b : List Char) (c : Char) : List Nat :=
  if isPopular b c then [] else indicesOf c b

/-- A candidate best block of `find_longest_match`. -/
structure FlmBest where
  bi : Nat
  bj : Nat
  size : Nat
deriving DecidableEq, Repr

/-- `j2len.get(j-1, 0)`: the chain length ending one position earlier
(`j = 0` queries key `-1`, which is absent). -/
def prevLen (f : Nat → Nat) : Nat → Nat
  | 0 => 0
  | j + 1 => f j

/-- The inner loop of `find_longest_match` over the occurrence list of
`a[i]` (ascending), updating the best block on a strictly longer chain. -/
def rowBestFold (i : Nat) (f : Nat → Nat) : List Nat → FlmBest → FlmBest
  | [], best => best
  | j :: js, best =>
    let k := prevLen f j + 1
    rowBestFold i f js (if best.size < k then ⟨i + 1 - k, j + 1 - k, k⟩ else best)

/-- The `newj2len` map built for one row: processed positions map to the
previous chain length plus one, everything else is absent (0). -/
def rowNewLen (f : Nat → Nat) (js : List Nat) : Nat → Nat :=
  fun j => if j ∈ js then prevLen f j + 1 else 0

/-- The state threaded through the row loop of `find_longest_match`. -/
def flmRows (a : List Char) (b2jb : Char → List Nat) (blo bhi : Nat)
    (rows : List Nat) (init : (Nat → Nat) × FlmBest) : (Nat → Nat) × FlmBest :=
  rows.foldl
    (fun st i =>
      let js := (b2jb (a.getD i ' ')).filter fun j => blo ≤ j ∧ j < bhi
      (rowNewLen st.1 js, rowBestFold i st.1 js st.2))
    init

/-- The backward extension loop (`while besti > alo and bestj > blo and
a[besti-1] == b[bestj-1]`; the junk test is vacuous since `isjunk` is
`None`). -/
def extBack (a b : List Char) (alo blo : Nat) : Nat → Nat → Nat → FlmBest
  | 0, bj, k => ⟨0, bj, k⟩
  | bi + 1, bj, k =>
    if alo ≤ bi ∧ blo < bj ∧ a.getD bi ' ' = b.getD (bj - 1) ' ' then
      extBack a b alo blo bi (bj - 1) (k + 1)
    else ⟨bi + 1, bj, k⟩

/-- The forward extension loop (`while besti+bestsize < ahi and ...`),
with explicit fuel; `ahi` steps always suffice since each step needs
`bi + k < ahi` and increments `k`. -/
def extFwd (a b : List Char) (ahi bhi bi bj : Nat) : Nat → Nat → Nat
  | 0, k => k
  | fuel + 1, k =>
    if bi + k < ahi ∧ bj + k < bhi ∧ a.getD (bi + k) ' ' = b.getD (bj + k) ' ' then
      extFwd a b ahi bhi bi bj fuel (k + 1)
    else k

/-- `find_longest_match(alo, ahi, blo, bhi)`. -/
def flm (a b : List Char) (b2jb : Char → List Nat) (alo ahi blo bhi : Nat) : FlmBest :=
  let st := flmRows a b2jb blo bhi (List.range' alo (ahi - alo)) ((fun _ => 0), ⟨alo, blo, 0⟩)
  let bk := extBack a b alo blo st.2.bi st.2.bj st.2.size
  ⟨bk.bi, bk.bj, extFwd a b ahi bhi bk.bi bk.bj ahi bk.size⟩

/-- Total size of the matching blocks of `get_matching_blocks` within one
interval (the LIFO queue of the source visits the same intervals; only the
sum of block sizes is needed by `ratio`, and adjacent-block merging
preserves it).  Fuel `(ahi - alo) + 1` always suffices: a block of
positive size strictly shrinks both sub-intervals. -/
def mbSum (a b : List Char) (b2jb : Char → List Nat) :
    Nat → Nat → Nat → Nat → Nat → Nat
  | 0, _, _, _, _ => 0
  | fuel + 1, alo, ahi, blo, bhi =>
    let m := flm a b b2jb alo ahi blo bhi
    if m.size = 0 then 0
    else
      m.size
        + (if alo < m.bi ∧ blo < m.bj then mbSum a b b2jb fuel alo m.bi blo m.bj else 0)
        + (if m.bi + m.size < ahi ∧ m.bj + m.size < bhi then
            mbSum a b b2jb fuel (m.bi + m.size) ahi (m.bj + m.size) bhi else 0)

/-- `sum(size for _, _, size in get_matching_blocks())`. -/
def matchesTotal (a b : List Char) : Nat :=
  mbSum a b (b2jMap b) (a.length + 1) 0 a.length 0 b.length

/-- `SequenceMatcher(None, a, b).ratio()`: `2 * M / (len(a) + len(b))`,
and 1.0 when both sequences are empty (`_calculate_ratio`). -/
def ratioL (a b : List Char) : ℚ :=
  if a.length + b.length = 0 then 1
  else (2 * matchesTotal a b : ℚ) / ((a.length : ℚ) + (b.length : ℚ))

/-- `similarity_score(str1, str2)` (utils.py lines 375-386):
`SequenceMatcher(None, str1.lower(), str2.lower()).ratio()`. -/
def similarity_score (s1 s2 : String) : ℚ :=
  ratioL (lowerStr s1.toList) (lowerStr s2.toList)

/-! ### Spotify track records

Tracks are Python dictionaries from the Spotify API.  Candidate
collection accesses `track['id']` (so a collected track always carries an
id); `format_spotify_track_text` accesses `track['artists']`, every
`artist['name']`, and `track['name']`, each of which may be missing in a
malformed record — modelled as `Option` fields.  A missing key raises
`KeyError`, modelled as `Except.error ()`. -/

structure Track where
  id : String
  artists : Option (List (Option String))
  name : Option String
deriving DecidableEq, Repr

/-- `' '.join(strings)`. -/
def joinSpace : List String → String
  | [] => ""
  | [s] => s
  | s :: rest => s ++ " " ++ joinSpace rest

/-- `format_spotify_track_text(track)` (utils.py lines 182-193):
`f"{' '.join(a['name'] for a in track['artists'])} - {track['name']}"`;
raises `KeyError` on a missing `artists`, artist `name` or track `name`. -/
def format_spotify_track_text (t : Track) : Except Unit String := do
  let arts ← match t.artists with
    | some a => pure a
    | none => throw ()
  let names ← arts.mapM fun a => match a with
    | some n => pure n
    | none => throw ()
  let nm ← match t.name with
    | some n => pure n
    | none => throw ()
  pure (joinSpace names ++ " - " ++ nm)

/-! ### `match_by_embeddings` (utils.py lines 196-268)

The embedding model is abstracted by three parameters: `encYt` is
`_embedding_matcher.encode` (absent when the model is unavailable or
encoding fails), `encSp` is the direct batch `model.encode` used for the
Spotify texts on the semantic path, and `cos` is `util.cos_sim` on the
resulting vectors.  Scores are exact rationals. -/

/-- The string-similarity fallback loop of `match_by_embeddings` (lines
231-243): best-scoring track under `similarity_score`, strict improvement
only, then the threshold test.  Note the initial best track is Python's
`None`, which is returned as the match when every score is 0 and the
threshold is non-positive. -/
def lexicalBest (ytClean : String) :
    List Track → Option Track → ℚ → Except Unit (Option Track × ℚ)
  | [], bt, bs => Except.ok (bt, bs)
  | t :: ts, bt, bs =>
    match format_spotify_track_text t with
    | Except.error e => Except.error e
    | Except.ok spText =>
      let score := similarity_score ytClean spText
      if bs < score then lexicalBest ytClean ts (some t) score
      else lexicalBest ytClean ts bt bs

/-- The list comprehension
`[format_spotify_track_text(track) for track in spotify_tracks]`:
formats left to right, propagating the first raised `KeyError`. -/
def formatAll : List Track → Except Unit (List String)
  | [] => Except.ok []
  | t :: ts =>
    match format_spotify_track_text t with
    | Except.error e => Except.error e
    | Except.ok s =>
      match formatAll ts with
      | Except.error e => Except.error e
      | Except.ok rest => Except.ok (s :: rest)

/-- Index of the first maximal element (`tensor.argmax()`). -/
def idxOfMax : List ℚ → Nat
  | [] => 0
  | x :: xs =>
    let rec go (best : ℚ) (bi pos : Nat) : List ℚ → Nat
      | [] => bi
      | y :: ys => if best < y then go y pos (pos + 1) ys else go best bi (pos + 1) ys
    go x 0 1 xs

/-- `match_by_embeddings(youtube_title, spotify_tracks, threshold)`:
returns `none` for an empty candidate list or when the best score is below
the threshold, otherwise the best track with its score (the track is
Python's `None` in the degenerate fallback case noted above). -/
def match_by_embeddings {V : Type} (ytTitle : String) (tracks : List Track)
    (threshold : ℚ) (encYt : String → Option V) (encSp : String → V)
    (cos : V → V → ℚ) : Except Unit (Option (Option Track × ℚ)) :=
  if tracks = [] then Except.ok none
  else
    match encYt (clean_youtube_title ytTitle) with
    | none =>
      match lexicalBest (clean_youtube_title ytTitle) tracks none 0 with
      | Except.error e => Except.error e
      | Except.ok best =>
        if threshold ≤ best.2 then Except.ok (some best) else Except.ok none
    | some ytEmb =>
      match formatAll tracks with
      | Except.error e => Except.error e
      | Except.ok texts =>
        let sims := texts.map fun tx => cos ytEmb (encSp tx)
        let bestScore := sims.getD (idxOfMax sims) 0
        if threshold ≤ bestScore then
          Except.ok (some (some (tracks.getD (idxOfMax sims) ⟨"", none, none⟩), bestScore))
        else Except.ok none

/-- `verify_match(youtube_title, spotify_track, threshold)` (utils.py
lines 389-424): embedding cosine similarity against the threshold, with
string-similarity fallback whenever either encode returns `None`. -/
def verify_match {V : Type} (ytTitle : String) (t : Track) (threshold : ℚ)
    (encYt : String → Option V) (cos : V → V → ℚ) : Except Unit Bool :=
  match format_spotify_track_text t with
  | Except.error e => Except.error e
  | Except.ok spText =>
    match encYt (clean_youtube_title ytTitle) with
    | none => Except.ok (threshold ≤ similarity_score (clean_youtube_title ytTitle) spText)
    | some ytEmb =>
      match encYt spText with
      | none => Except.ok (threshold ≤ similarity_score (clean_youtube_title ytTitle) spText)
      | some spEmb => Except.ok (threshold ≤ cos ytEmb spEmb)

/-! ### `SpotifyHandler.search_track_best_match` (spotify_handler.py
lines 72-134) and the `transfer.py` classification pipeline.

`search_track` (lines 54-70) asks the API for at most `limit` results and
returns `[]` on any error, so the provider is modelled as a total function
whose per-query result is truncated to the requested limit of 10. -/

/-- Append the tracks of one query, keeping only ids not seen before
(insertion order, first occurrence wins). -/
def addUnique (acc : List Track) : List Track → List Track
  | [] => acc
  | t :: ts =>
    if acc.any fun u => u.id = t.id then addUnique acc ts
    else addUnique (acc ++ [t]) ts

/-- Candidate collection across all queries (lines 95-110): top 10
results per query, deduplicated by track id.  There is no total cap and
no early stop. -/
def collectCandidates (queries : List String) (provider : String → List Track) :
    List Track :=
  queries.foldl (fun acc q => addUnique acc ((provider q).take 10)) []

/-- `search_track_best_match(queries, youtube_title)`: collect candidates;
`None` when none were found; the first candidate verbatim when
`youtube_title` is empty; otherwise delegate to `match_by_embeddings`
with threshold 0.6. -/
def search_track_best_match {V : Type} (queries : List String)
    (ytTitle : String) (provider : String → List Track)
    (encYt : String → Option V) (encSp : String → V) (cos : V → V → ℚ) :
    Except Unit (Option Track) :=
  match collectCandidates queries provider with
  | [] => Except.ok none
  | t0 :: rest =>
    if ytTitle = "" then Except.ok (some t0)
    else
      match match_by_embeddings ytTitle (t0 :: rest) (3 / 5) encYt encSp cos with
      | Except.error e => Except.error e
      | Except.ok (some (bt, _)) => Except.ok bt
      | Except.ok none => Except.ok none

/-- The three-way tier recorded per video by `match_tracks`. -/
inductive Tier where
  | matched
  | lowConfidence
  | notFound
deriving DecidableEq, Repr

/-- One iteration of `PlaylistTransfer.match_tracks` (transfer.py lines
109-129): build queries, call `search_track_best_match(queries)` (the
YouTube title is *not* passed, so it defaults to `""`), then classify with
`verify_match` at the default threshold 0.6. -/
def matchTracksStep {V : Type} (videoTitle : String)
    (provider : String → List Track) (encYt : String → Option V)
    (encSp : String → V) (cos : V → V → ℚ) :
    Except Unit (Tier × Option Track) :=
  match search_track_best_match (build_search_queries videoTitle) "" provider encYt encSp cos with
  | Except.error e => Except.error e
  | Except.ok (some t) =>
    match verify_match videoTitle t (3 / 5) encYt cos with
    | Except.error e => Except.error e
    | Except.ok ok =>
      if ok then Except.ok (Tier.matched, some t)
      else Except.ok (Tier.lowConfidence, some t)
  | Except.ok none => Except.ok (Tier.notFound, none)

/-! ### `EmbeddingMatcher` (utils.py lines 15-175)

The singleton's mutable state is `{_model_name, _model}`.  Loading and
encoding call into `sentence_transformers`; their outcomes are passed in
as `Except` parameters (`SentenceTransformer(model_name)` and
`model.encode(text)`), with `Except.error` standing for a raised
exception, which the source catches and converts to `None`. -/

structure EMState (M : Type) where
  modelName : Option String
  loaded : Option M

/-- `self._model_name or 'all-mpnet-base-v2'` (`None` and the empty string
are falsy). -/
def effectiveModelName (st : EMState M) : String :=
  match st.modelName with
  | none => "all-mpnet-base-v2"
  | some n => if n = "" then "all-mpnet-base-v2" else n

/-- The `model` property (lines 33-63): an already-loaded model is
returned as is; otherwise the `string_only` sentinel yields `None`, and a
load attempt yields the model or `None` when loading raised. -/
def modelProperty {M : Type} (st : EMState M) (loadRes : Except Unit M) : Option M :=
  match st.loaded with
  | some m => some m
  | none =>
    if effectiveModelName st = "string_only" then none
    else
      match loadRes with
      | Except.ok m => some m
      | Except.error _ => none

/-- `EmbeddingMatcher.encode` (lines 65-73): `None` when the model is
unavailable or when `model.encode` raised; never raises itself. -/
def emEncode {M V : Type} (st : EMState M) (loadRes : Except Unit M)
    (encRes : Except Unit V) : Option V :=
  match modelProperty st loadRes with
  | none => none
  | some _ =>
    match encRes with
    | Except.ok v => some v
    | Except.error _ => none

/-! ## Shared lemmas about the pipeline -/

theorem exceptBind_ok {α β : Type} (a : α) (f : α → Except Unit β) :
    (Except.ok a >>= f : Except Unit β) = f a := rfl

theorem exceptBind_error {α β : Type} (f : α → Except Unit β) :
    (Except.error () >>= f : Except Unit β) = Except.error () := rfl

theorem exceptPure {α : Type} (a : α) : (pure a : Except Unit α) = Except.ok a := rfl

/-- With an empty YouTube title, `search_track_best_match` returns the
first collected candidate (or `None` when there is none) and never
consults the scorer. -/
theorem search_empty_title {V : Type} (qs : List String)
    (p : String → List Track) (encYt : String → Option V)
    (encSp : String → V) (cos : V → V → ℚ) :
    search_track_best_match qs "" p encYt encSp cos =
      Except.ok (collectCandidates qs p).head? := by
  unfold search_track_best_match
  cases h : collectCandidates qs p with
  | nil => rfl
  | cons t ts => rfl

/-- A well-formed track makes `verify_match` succeed with some boolean. -/
theorem verify_match_ok {V : Type} (ytTitle : String) (t : Track) (thr : ℚ)
    (encYt : String → Option V) (cos : V → V → ℚ) (s : String)
    (hfmt : format_spotify_track_text t = Except.ok s) :
    ∃ vb, verify_match ytTitle t thr encYt cos = Except.ok vb := by
  unfold verify_match
  rw [hfmt]
  dsimp only
  cases h1 : encYt (clean_youtube_title ytTitle) with
  | none => exact ⟨_, rfl⟩
  | some v =>
    dsimp only
    cases h2 : encYt s with
    | none => exact ⟨_, rfl⟩
    | some w => exact ⟨_, rfl⟩

/-! ## Claim C10 -/

/-- C10: when `search_track_best_match` is called with an empty
`youtube_title` and at least one candidate was collected, it returns the
first collected candidate verbatim; the quantification over the encoder
and cosine parameters shows no similarity scoring or threshold check can
influence the result. -/
theorem claim_C10_empty_title_returns_first {V : Type} (qs : List String)
    (p : String → List Track) (encYt : String → Option V)
    (encSp : String → V) (cos : V → V → ℚ) (t0 : Track) (rest : List Track)
    (h : collectCandidates qs p = t0 :: rest) :
    search_track_best_match qs "" p encYt encSp cos = Except.ok (some t0) := by
  rw [search_empty_title, h]
  rfl

/-- Witness for C10 at a concrete query list and provider. -/
theorem claim_C10_witness :
    collectCandidates ["q"] (fun _ => [⟨"a", some [some "A"], some "N"⟩]) =
        [⟨"a", some [some "A"], some "N"⟩] ∧
      search_track_best_match (V := Unit) ["q"]
          "" (fun _ => [⟨"a", some [some "A"], some "N"⟩]) (fun _ => none)
          (fun _ => ()) (fun _ _ => 0) =
        Except.ok (some ⟨"a", some [some "A"], some "N"⟩) :=
  ⟨by decide,
   claim_C10_empty_title_returns_first ["q"] _ _ _ _ _ [] (by decide)⟩

/-! ## Claim C1 -/

/-- C1: in the classification pipeline (`transfer.py`'s `match_tracks`
step), the tier is `not_found` exactly when the collected candidate set is
empty; when a candidate exists it is surfaced (the first collected one,
which is the only candidate scored), and a below-threshold verification
(`vb = false`) yields `low_confidence`, never `not_found`. -/
theorem claim_C1_not_found_iff_no_candidates {V : Type} (title : String)
    (p : String → List Track) (encYt : String → Option V)
    (encSp : String → V) (cos : V → V → ℚ)
    (hw : ∀ t, (collectCandidates (build_search_queries title) p).head? = some t →
      ∃ s, format_spotify_track_text t = Except.ok s) :
    ∃ tier tr, matchTracksStep title p encYt encSp cos = Except.ok (tier, tr) ∧
      (tier = Tier.notFound ↔ collectCandidates (build_search_queries title) p = []) ∧
      ∀ t0 rest, collectCandidates (build_search_queries title) p = t0 :: rest →
        tr = some t0 ∧
        ∀ vb, verify_match title t0 (3 / 5) encYt cos = Except.ok vb →
          tier = (if vb then Tier.matched else Tier.lowConfidence) := by
  unfold matchTracksStep
  rw [search_empty_title]
  cases h : collectCandidates (build_search_queries title) p with
  | nil =>
    refine ⟨Tier.notFound, none, rfl, by simp, ?_⟩
    intro t0 rest h'
    simp [h] at h'
  | cons t0 rest =>
    obtain ⟨s, hs⟩ := hw t0 (by rw [h]; rfl)
    obtain ⟨vb, hv⟩ := verify_match_ok title t0 (3 / 5) encYt cos s hs
    refine ⟨if vb then Tier.matched else Tier.lowConfidence, some t0, ?_, ?_, ?_⟩
    · dsimp only [List.head?]
      rw [hv]
      cases vb <;> rfl
    · constructor
      · intro ht; cases vb <;> simp_all
      · intro hc; simp [h] at hc
    · intro t0' rest' h'
      injection h' with h1 h2
      subst h1
      refine ⟨rfl, ?_⟩
      intro vb' hv'
      rw [hv] at hv'
      cases hv'
      rfl

/-- Witness for C1 at a concrete title and single-candidate provider. -/
theorem claim_C1_witness :
    ∃ tier tr, matchTracksStep (V := Unit) "x"
        (fun _ => [⟨"a", some [some "A"], some "N"⟩]) (fun _ => none)
        (fun _ => ()) (fun _ _ => 0) = Except.ok (tier, tr) ∧
      (tier = Tier.notFound ↔
        collectCandidates (build_search_queries "x")
          (fun _ => [⟨"a", some [some "A"], some "N"⟩]) = []) ∧
      ∀ t0 rest, collectCandidates (build_search_queries "x")
          (fun _ => [⟨"a", some [some "A"], some "N"⟩]) = t0 :: rest →
        tr = some t0 ∧
        ∀ vb, verify_match "x" t0 (3 / 5) (fun _ => (none : Option Unit))
            (fun _ _ => 0) = Except.ok vb →
          tier = (if vb then Tier.matched else Tier.lowConfidence) :=
  claim_C1_not_found_iff_no_candidates "x" _ _ _ _
    (fun t ht => by
      have hh : (collectCandidates (build_search_queries "x")
          (fun _ => [⟨"a", some [some "A"], some "N"⟩])).head? =
          some ⟨"a", some [some "A"], some "N"⟩ := by decide
      rw [hh] at ht
      cases ht
      exact ⟨"A - N", rfl⟩)

/-! ## Claim C6 -/

/-- The two artist-derived queries always differ: their lengths are
`|a| + |t| + 1` and `|a| + |t| + 18`. -/
theorem artistQueries_ne (a t : List Char) :
    a ++ ' ' :: t ≠
      "artist:\"".toList ++ a ++ "\" track:\"".toList ++ t ++ ['"'] := by
  intro h
  have := congrArg List.length h
  simp [List.length_append] at this
  omega

theorem appendIfAbsent_nodup {α : Type} [DecidableEq α] (l : List α) (x : α)
    (hl : l.Nodup) : (appendIfAbsent l x).Nodup := by
  unfold appendIfAbsent
  split
  · exact hl
  · simp [List.nodup_append, hl]
    assumption

theorem appendIfAbsent_ne_nil {α : Type} [DecidableEq α] (l : List α) (x : α) :
    appendIfAbsent l x ≠ [] := by
  unfold appendIfAbsent
  split
  · intro h
    subst h
    simp_all
  · simp

/-- C6 counterexample: for the raw title `"(x)"` the normalized title is
the empty string and it is inserted into the query list, so the claim's
"no empty string" part fails on the code (only duplicates are skipped at
insertion, not empties). -/
theorem claim_C6_counterexample :
    build_search_queries "(x)" = ["", "(x)"] ∧ "" ∈ build_search_queries "(x)" := by
  decide

/-- C6 as amended: for every raw title the query list contains no repeated
string and is non-empty (even for the empty title); the original claim's
"no empty string" guarantee does not hold — the normalized-title entry may
be the empty string. -/
theorem artistQueriesOf_nodup (p : Option (List Char) × List Char) :
    (artistQueriesOf p).Nodup := by
  unfold artistQueriesOf
  cases p.1 with
  | none => simp
  | some a =>
    dsimp only
    by_cases hc : a ≠ [] ∧ p.2 ≠ []
    · rw [if_pos hc]
      refine List.nodup_cons.mpr ⟨?_, List.nodup_singleton _⟩
      simp only [List.mem_singleton]
      exact artistQueries_ne a p.2
    · rw [if_neg hc]
      simp

theorem claim_C6_amended_nodup_nonempty (s : String) :
    (build_search_queries s).Nodup ∧ 1 ≤ (build_search_queries s).length := by
  have hbase : ∀ l : List Char, (buildSearchQueriesL l).Nodup ∧ buildSearchQueriesL l ≠ [] := by
    intro l
    unfold buildSearchQueriesL
    refine ⟨?_, ?_⟩
    · exact appendIfAbsent_nodup _ _
        (appendIfAbsent_nodup _ _ (artistQueriesOf_nodup _))
    · exact appendIfAbsent_ne_nil _ _
  constructor
  · exact (hbase s.toList).1.map
      (fun a b hab => by injection hab)
  · have := (hbase s.toList).2
    unfold build_search_queries
    cases hh : buildSearchQueriesL s.toList with
    | nil => exact absurd hh this
    | cons x xs => simp

/-- Witness for C6's amended claim at a concrete title. -/
theorem claim_C6_amended_witness :
    (build_search_queries "The Beatles - Hey Jude").Nodup ∧
      1 ≤ (build_search_queries "The Beatles - Hey Jude").length :=
  claim_C6_amended_nodup_nonempty "The Beatles - Hey Jude"

/-! ## Claim C5 -/

/-- Modelled from the spec: the CandidateCollector of §4.4, which the
repository's code does not implement — it takes `per_query_limit` and
`total_cap`, appends unseen candidates per query, and stops before the
next query once `total_cap` distinct candidates are reached (the in-flight
query is finished, never cut mid-query). -/
def specCollectCandidates (queries : List String)
    (provider : String → List Track) (perQueryLimit totalCap : Nat) : List Track :=
  queries.foldl
    (fun acc q =>
      if totalCap ≤ acc.length then acc
      else addUnique acc ((provider q).take perQueryLimit))
    []

/-- A provider with two queries of ten distinct tracks each. -/
def twentyProvider : String → List Track := fun q =>
  if q = "one" then
    (List.range 10).map fun n =>
      ⟨String.mk ['a', Char.ofNat (48 + n)], some [some "A"], some "N"⟩
  else if q = "two" then
    (List.range 10).map fun n =>
      ⟨String.mk ['b', Char.ofNat (48 + n)], some [some "A"], some "N"⟩
  else []

/-- C5 counterexample: the code's collector gathers all twenty distinct
candidates across both queries — it never stops early and never
truncates, so it differs from the spec's capped collector (here at
`total_cap = 10`, where the spec stops after the first query). -/
theorem claim_C5_counterexample :
    (collectCandidates ["one", "two"] twentyProvider).length = 20 ∧
      (specCollectCandidates ["one", "two"] twentyProvider 10 10).length = 10 ∧
      specCollectCandidates ["one", "two"] twentyProvider 10 10 ≠
        collectCandidates ["one", "two"] twentyProvider := by
  decide

theorem addUnique_ids_nodup :
    ∀ (ts acc : List Track), (acc.map Track.id).Nodup →
      ((addUnique acc ts).map Track.id).Nodup := by
  intro ts
  induction ts with
  | nil => intro acc h; exact h
  | cons t ts ih =>
    intro acc h
    unfold addUnique
    split
    · exact ih acc h
    · apply ih
      simp [List.nodup_append, h]
      intro u hu hid
      rename_i hnone
      exact hnone (List.any_eq_true.mpr ⟨u, hu, by simp [hid]⟩)

theorem addUnique_length :
    ∀ (ts acc : List Track), (addUnique acc ts).length ≤ acc.length + ts.length := by
  intro ts
  induction ts with
  | nil => intro acc; simp [addUnique]
  | cons t ts ih =>
    intro acc
    unfold addUnique
    split
    · exact Nat.le_trans (ih acc) (by simp)
    · have := ih (acc ++ [t])
      simp at this ⊢
      omega

/-- C5 as amended: the collected candidate set is deduplicated by id
(first occurrence wins, insertion order across queries) and its size is
bounded by ten candidates per query — ten times the number of queries —
but no configured total cap exists and collection never stops early. -/
theorem claim_C5_amended_dedup_bound (qs : List String) (p : String → List Track) :
    ((collectCandidates qs p).map Track.id).Nodup ∧
      (collectCandidates qs p).length ≤ 10 * qs.length := by
  have key : ∀ (qs : List String) (acc : List Track), (acc.map Track.id).Nodup →
      ((qs.foldl (fun acc q => addUnique acc ((p q).take 10)) acc).map Track.id).Nodup ∧
        (qs.foldl (fun acc q => addUnique acc ((p q).take 10)) acc).length ≤
          acc.length + 10 * qs.length := by
    intro qs
    induction qs with
    | nil => intro acc h; exact ⟨h, by simp⟩
    | cons q qs ih =>
      intro acc h
      have h1 := addUnique_ids_nodup ((p q).take 10) acc h
      obtain ⟨n1, n2⟩ := ih (addUnique acc ((p q).take 10)) h1
      refine ⟨n1, Nat.le_trans n2 ?_⟩
      have h2 := addUnique_length ((p q).take 10) acc
      have h3 : ((p q).take 10).length ≤ 10 := by
        simp [List.length_take]
      simp [List.length_cons, Nat.mul_succ]
      omega
  unfold collectCandidates
  have := key qs [] (by simp)
  simpa using this

/-! ## Claim C3 -/

/-- C3 counterexample: when a model instance is already loaded in memory,
configuring the `string_only` sentinel does not make `encode` return
`None` — the `model` property returns the loaded instance before checking
the sentinel, so `encode` still produces a vector. -/
theorem claim_C3_counterexample :
    effectiveModelName (M := Unit) ⟨some "string_only", some ()⟩ = "string_only" ∧
      emEncode (M := Unit) (V := Unit) ⟨some "string_only", some ()⟩
        (Except.ok ()) (Except.ok ()) = some () :=
  ⟨rfl, rfl⟩

/-- C3 as amended: when no model instance is loaded in memory (the
lazy-load path), the `string_only` sentinel, a failed load, or a failed
encoding each make `encode` return `None` without raising (`emEncode` is
total), and the scorer then behaves exactly as with no embedding model at
all, i.e. it falls back to lexical string similarity for that call. -/
theorem claim_C3_amended_encode_none_falls_back {M V : Type} (st : EMState M)
    (loadRes : Except Unit M) (encRes : Except Unit V)
    (hnl : st.loaded = none)
    (hfail : effectiveModelName st = "string_only" ∨
      loadRes = Except.error () ∨ encRes = Except.error ())
    (ytTitle : String) (tracks : List Track) (thr : ℚ)
    (encSp : String → V) (cos : V → V → ℚ) :
    emEncode st loadRes encRes = none ∧
      match_by_embeddings ytTitle tracks thr
          (fun _ => emEncode st loadRes encRes) encSp cos =
        match_by_embeddings ytTitle tracks thr (fun _ => none) encSp cos := by
  have henc : emEncode st loadRes encRes = none := by
    unfold emEncode
    cases hm : modelProperty st loadRes with
    | none => rfl
    | some m =>
      rcases hfail with h | h | h
      · exfalso
        unfold modelProperty at hm
        rw [hnl, if_pos h] at hm
        cases hm
      · exfalso
        unfold modelProperty at hm
        rw [hnl] at hm
        by_cases hs : effectiveModelName st = "string_only"
        · rw [if_pos hs] at hm; cases hm
        · rw [if_neg hs, h] at hm; cases hm
      · rw [h]
  refine ⟨henc, ?_⟩
  have harg : (fun _ : String => emEncode st loadRes encRes) =
      (fun _ : String => (none : Option V)) := funext fun _ => henc
  rw [harg]

/-- Witness for C3's amended claim with the sentinel configured and no
model loaded. -/
theorem claim_C3_amended_witness :
    emEncode (M := Unit) (V := Unit) ⟨some "string_only", none⟩
        (Except.ok ()) (Except.ok ()) = none ∧
      match_by_embeddings "t" [] (3 / 5)
          (fun _ => emEncode (M := Unit) (V := Unit) ⟨some "string_only", none⟩
            (Except.ok ()) (Except.ok ())) (fun _ => ()) (fun _ _ => 0) =
        match_by_embeddings "t" [] (3 / 5) (fun _ => none) (fun _ => ())
          (fun _ _ => 0) :=
  claim_C3_amended_encode_none_falls_back ⟨some "string_only", none⟩
    (Except.ok ()) (Except.ok ()) rfl (Or.inl rfl) "t" [] (3 / 5)
    (fun _ => ()) (fun _ _ => 0)

/-! ## Claim C7 -/

theorem lexicalBest_error (ytClean : String) :
    ∀ (ts : List Track) (bt : Option Track) (bs : ℚ) (t : Track), t ∈ ts →
      format_spotify_track_text t = Except.error () →
      lexicalBest ytClean ts bt bs = Except.error () := by
  intro ts
  induction ts with
  | nil => intro bt bs t ht; cases ht
  | cons u us ih =>
    intro bt bs t ht hft
    unfold lexicalBest
    cases hf : format_spotify_track_text u with
    | error e => cases e; rfl
    | ok s =>
      rcases List.mem_cons.mp ht with rfl | hmem
      · rw [hft] at hf; cases hf
      · dsimp only
        split
        · exact ih _ _ t hmem hft
        · exact ih _ _ t hmem hft

theorem formatAll_error :
    ∀ (ts : List Track) (t : Track), t ∈ ts →
      format_spotify_track_text t = Except.error () →
      formatAll ts = Except.error () := by
  intro ts
  induction ts with
  | nil => intro t ht; cases ht
  | cons u us ih =>
    intro t ht hft
    unfold formatAll
    cases hf : format_spotify_track_text u with
    | error e => cases e; rfl
    | ok s =>
      rcases List.mem_cons.mp ht with rfl | hmem
      · rw [hft] at hf; cases hf
      · rw [ih t hmem hft]

/-- C7 as amended: a candidate record missing its name or contributors
makes the scorer raise (`KeyError`, modelled as `Except.error`), aborting
the whole `match_by_embeddings` call — the malformed candidate is not
treated as score 0 and the batch does not survive it. -/
theorem claim_C7_amended_malformed_raises {V : Type} (ytTitle : String)
    (tracks : List Track) (thr : ℚ) (encYt : String → Option V)
    (encSp : String → V) (cos : V → V → ℚ) (t : Track)
    (ht : t ∈ tracks) (hft : format_spotify_track_text t = Except.error ()) :
    match_by_embeddings ytTitle tracks thr encYt encSp cos = Except.error () := by
  unfold match_by_embeddings
  have hne : ¬tracks = [] := by rintro rfl; cases ht
  rw [if_neg hne]
  cases henc : encYt (clean_youtube_title ytTitle) with
  | none =>
    rw [lexicalBest_error (clean_youtube_title ytTitle) tracks none 0 t ht hft]
  | some v =>
    rw [formatAll_error tracks t ht hft]

/-- C7 counterexample: a malformed candidate (missing contributors) makes
the whole scoring call raise, even though a well-formed candidate follows
it in the batch — the claim's score-0 tolerance does not hold. -/
theorem claim_C7_counterexample :
    match_by_embeddings (V := Unit) "t"
        [⟨"b1", none, some "X"⟩, ⟨"g1", some [some "Artist"], some "Song"⟩]
        (3 / 5) (fun _ => none) (fun _ => ()) (fun _ _ => 0) =
      Except.error () := by
  rfl

/-- Witness for C7's amended claim at a concrete malformed track. -/
theorem claim_C7_amended_witness :
    match_by_embeddings (V := Unit) "t" [⟨"b1", none, some "X"⟩] (3 / 5)
        (fun _ => none) (fun _ => ()) (fun _ _ => 0) = Except.error () :=
  claim_C7_amended_malformed_raises "t" _ _ _ _ _ ⟨"b1", none, some "X"⟩
    (List.mem_singleton.mpr rfl) rfl

/-! ## Claim C8 -/

/-- C8: the parser normalises first and tries the four patterns in fixed
priority order — `' - '`, then `': '`, then the `by` keyword, then a
quoted second segment — returning on the first match; and concretely
`"Artist - Song (Live)"` parses to contributor `"Artist"` with a work that
contains `"Song"` and excludes `"(Live)"`. -/
theorem claim_C8_parser_priority :
    (∀ l : List Char, parseArtistTitleL l = parseCleaned (cleanTitleL l)) ∧
    (∀ c : List Char,
      (∀ a b, splitOnce (" - ".toList) c = some (a, b) →
        parseCleaned c = (some (stripStr a), stripStr b)) ∧
      (splitOnce (" - ".toList) c = none →
        ∀ a b, splitOnce (": ".toList) c = some (a, b) →
          parseCleaned c = (some (stripStr a), stripStr b)) ∧
      (splitOnce (" - ".toList) c = none →
        splitOnce (": ".toList) c = none →
        ∀ g1 g2, bySearch c = some (g1, g2) →
          parseCleaned c = (some (stripStr g2), stripStr g1)) ∧
      (splitOnce (" - ".toList) c = none →
        splitOnce (": ".toList) c = none →
        bySearch c = none →
        ∀ g1 g2, quoteSearch c = some (g1, g2) →
          parseCleaned c = (some (stripStr g1), stripStr g2)) ∧
      (splitOnce (" - ".toList) c = none →
        splitOnce (": ".toList) c = none →
        bySearch c = none →
        quoteSearch c = none →
        parseCleaned c = (none, c))) ∧
    parse_artist_title "Artist - Song (Live)" = (some "Artist", "Song") ∧
    "Song".toList <:+: (parse_artist_title "Artist - Song (Live)").2.toList ∧
    ¬ "(Live)".toList <:+: (parse_artist_title "Artist - Song (Live)").2.toList := by
  refine ⟨fun _ => rfl, ?_, by decide, by decide, by decide⟩
  intro c
  refine ⟨?_, ?_, ?_, ?_, ?_⟩
  · intro a b h
    unfold parseCleaned
    rw [h]
  · intro h1 a b h
    unfold parseCleaned
    rw [h1, h]
  · intro h1 h2 g1 g2 h
    unfold parseCleaned
    rw [h1, h2, h]
  · intro h1 h2 h3 g1 g2 h
    unfold parseCleaned
    rw [h1, h2, h3, h]
  · intro h1 h2 h3 h4
    unfold parseCleaned
    rw [h1, h2, h3, h4]

/-- Witness for C8 exercising the third-priority `by` pattern. -/
theorem claim_C8_witness :
    parseCleaned "Song by Artist".toList =
      (some (stripStr "Artist".toList), stripStr "Song".toList) :=
  (claim_C8_parser_priority.2.1 "Song by Artist".toList).2.2.1 (by decide)
    (by decide) "Song".toList "Artist".toList (by decide)

/-! ## Bounds for `find_longest_match` and `ratio`

The chain-length map satisfies `rowOK`: every stored chain ends inside
`[blo, bhi)`, is no longer than the distance to `blo`, and no longer than
the number of processed rows.  The best block satisfies `bestOK`: it is
either the trivial initial block or lies entirely inside the current
bounds. -/

def rowOK (blo bhi : Nat) (f : Nat → Nat) (r : Nat) : Prop :=
  ∀ j, f j ≤ j + 1 - blo ∧ f j ≤ r ∧ (f j ≠ 0 → blo ≤ j ∧ j < bhi)

def bestOK (alo blo bhi : Nat) (best : FlmBest) (m : Nat) : Prop :=
  (best.size = 0 ∧ best.bi = alo ∧ best.bj = blo) ∨
  (1 ≤ best.size ∧ alo ≤ best.bi ∧ blo ≤ best.bj ∧
    best.bi + best.size ≤ m ∧ best.bj + best.size ≤ bhi)

theorem bestOK_mk {alo blo bhi bi bj k m : Nat} :
    bestOK alo blo bhi ⟨bi, bj, k⟩ m ↔
      ((k = 0 ∧ bi = alo ∧ bj = blo) ∨
        (1 ≤ k ∧ alo ≤ bi ∧ blo ≤ bj ∧ bi + k ≤ m ∧ bj + k ≤ bhi)) :=
  Iff.rfl

theorem bestOK_mono {alo blo bhi : Nat} {best : FlmBest} {m m' : Nat}
    (hm : m ≤ m') (h : bestOK alo blo bhi best m) : bestOK alo blo bhi best m' := by
  rcases h with h | h
  · exact Or.inl h
  · exact Or.inr ⟨h.1, h.2.1, h.2.2.1, Nat.le_trans h.2.2.2.1 hm, h.2.2.2.2⟩

theorem prevLen_succ_le_dist {blo bhi : Nat} {f : Nat → Nat} {r : Nat}
    (hf : rowOK blo bhi f r) {j : Nat} (hj : blo ≤ j) :
    prevLen f j + 1 ≤ j + 1 - blo := by
  cases j with
  | zero => simp [prevLen]; omega
  | succ j' =>
    have := (hf j').1
    simp only [prevLen]
    omega

theorem prevLen_succ_le_rows {blo bhi : Nat} {f : Nat → Nat} {r : Nat}
    (hf : rowOK blo bhi f r) (j : Nat) :
    prevLen f j + 1 ≤ r + 1 := by
  cases j with
  | zero => simp [prevLen]
  | succ j' => simpa [prevLen] using (hf j').2.1

theorem rowBestFold_ok {alo blo bhi : Nat} (i : Nat) (f : Nat → Nat)
    (hf : rowOK blo bhi f (i - alo)) (hi : alo ≤ i) :
    ∀ (js : List Nat) (best : FlmBest),
      (∀ j ∈ js, blo ≤ j ∧ j < bhi) → bestOK alo blo bhi best (i + 1) →
      bestOK alo blo bhi (rowBestFold i f js best) (i + 1) := by
  intro js
  induction js with
  | nil => intro best _ hb; exact hb
  | cons j js ih =>
    intro best hjs hb
    unfold rowBestFold
    apply ih _ (fun x hx => hjs x (List.mem_cons_of_mem _ hx))
    split
    · have hjb := hjs j (List.mem_cons_self _ _)
      have h1 := prevLen_succ_le_dist hf hjb.1
      have h2 := prevLen_succ_le_rows hf j
      rw [bestOK_mk]
      refine Or.inr ?_
      omega
    · exact hb

theorem rowNewLen_ok {blo bhi : Nat} {f : Nat → Nat} {r : Nat}
    (hf : rowOK blo bhi f r) (js : List Nat)
    (hjs : ∀ j ∈ js, blo ≤ j ∧ j < bhi) :
    rowOK blo bhi (rowNewLen f js) (r + 1) := by
  intro j
  unfold rowNewLen
  split
  · rename_i hmem
    have hjb := hjs j hmem
    have h1 := prevLen_succ_le_dist hf hjb.1
    have h2 := prevLen_succ_le_rows hf j
    exact ⟨h1, h2, fun _ => hjb⟩
  · simp

theorem flmRows_cons (a : List Char) (b2jb : Char → List Nat)
    (blo bhi i : Nat) (rows : List Nat) (st : (Nat → Nat) × FlmBest) :
    flmRows a b2jb blo bhi (i :: rows) st =
      flmRows a b2jb blo bhi rows
        (rowNewLen st.1 ((b2jb (a.getD i ' ')).filter fun j => blo ≤ j ∧ j < bhi),
         rowBestFold i st.1 ((b2jb (a.getD i ' ')).filter fun j => blo ≤ j ∧ j < bhi) st.2) :=
  rfl

theorem flmRows_ok (a : List Char) (b2jb : Char → List Nat)
    {alo blo bhi : Nat} :
    ∀ (n i₀ : Nat) (st : (Nat → Nat) × FlmBest), alo ≤ i₀ →
      rowOK blo bhi st.1 (i₀ - alo) → bestOK alo blo bhi st.2 i₀ →
      rowOK blo bhi (flmRows a b2jb blo bhi (List.range' i₀ n) st).1 ((i₀ + n) - alo) ∧
        bestOK alo blo bhi (flmRows a b2jb blo bhi (List.range' i₀ n) st).2 (i₀ + n) := by
  intro n
  induction n with
  | zero => intro i₀ st hi hr hb; exact ⟨hr, hb⟩
  | succ n ih =>
    intro i₀ st hi hr hb
    have hrange : List.range' i₀ (n + 1) = i₀ :: List.range' (i₀ + 1) n := rfl
    rw [hrange, flmRows_cons]
    set js := (b2jb (a.getD i₀ ' ')).filter (fun j => blo ≤ j ∧ j < bhi) with hjsdef
    have hjs : ∀ j ∈ js, blo ≤ j ∧ j < bhi := by
      intro j hj
      have := List.of_mem_filter hj
      simpa using this
    have hr' : rowOK blo bhi (rowNewLen st.1 js) ((i₀ + 1) - alo) := by
      have := rowNewLen_ok hr js hjs
      have heq : (i₀ - alo) + 1 = (i₀ + 1) - alo := by omega
      rwa [heq] at this
    have hb' : bestOK alo blo bhi (rowBestFold i₀ st.1 js st.2) (i₀ + 1) :=
      rowBestFold_ok i₀ st.1 hr hi js st.2 hjs (bestOK_mono (Nat.le_succ _) hb)
    have := ih (i₀ + 1) (rowNewLen st.1 js, rowBestFold i₀ st.1 js st.2)
      (Nat.le_succ_of_le hi) hr' hb'
    have heq2 : i₀ + 1 + n = i₀ + (n + 1) := by omega
    rw [heq2] at this
    exact this

theorem extBack_ok (a b : List Char) {alo blo bhi m : Nat} :
    ∀ (bi bj k : Nat), bestOK alo blo bhi ⟨bi, bj, k⟩ m →
      bestOK alo blo bhi (extBack a b alo blo bi bj k) m := by
  intro bi
  induction bi with
  | zero => intro bj k h; exact h
  | succ n ih =>
    intro bj k h
    unfold extBack
    split
    · rename_i hg
      apply ih
      rw [bestOK_mk] at h ⊢
      omega
    · exact h

theorem extFwd_ok (a b : List Char) {alo blo bhi ahi m : Nat}
    (hm : ahi ≤ m) {bi bj : Nat} :
    ∀ (fuel k : Nat), bestOK alo blo bhi ⟨bi, bj, k⟩ m →
      bestOK alo blo bhi ⟨bi, bj, extFwd a b ahi bhi bi bj fuel k⟩ m := by
  intro fuel
  induction fuel with
  | zero => intro k h; exact h
  | succ n ih =>
    intro k h
    unfold extFwd
    split
    · rename_i hg
      apply ih
      rw [bestOK_mk] at h ⊢
      omega
    · exact h

theorem flm_bounds (a b : List Char) (b2jb : Char → List Nat)
    (alo ahi blo bhi : Nat)
    (hs : 1 ≤ (flm a b b2jb alo ahi blo bhi).size) :
    alo ≤ (flm a b b2jb alo ahi blo bhi).bi ∧
      blo ≤ (flm a b b2jb alo ahi blo bhi).bj ∧
      (flm a b b2jb alo ahi blo bhi).bi + (flm a b b2jb alo ahi blo bhi).size ≤ ahi ∧
      (flm a b b2jb alo ahi blo bhi).bj + (flm a b b2jb alo ahi blo bhi).size ≤ bhi := by
  have hinit : rowOK blo bhi (fun _ => (0 : Nat)) (alo - alo) := by
    intro j; simp
  have hbinit : bestOK alo blo bhi ⟨alo, blo, 0⟩ alo := Or.inl ⟨rfl, rfl, rfl⟩
  have hrows := @flmRows_ok a b2jb alo blo bhi
    (ahi - alo) alo ((fun _ => 0), ⟨alo, blo, 0⟩) (Nat.le_refl _) hinit hbinit
  set st := flmRows a b2jb blo bhi (List.range' alo (ahi - alo))
    ((fun _ => 0), ⟨alo, blo, 0⟩) with hst
  have hb1 : bestOK alo blo bhi ⟨st.2.bi, st.2.bj, st.2.size⟩ (alo + (ahi - alo)) :=
    hrows.2
  have hb2 : bestOK alo blo bhi (extBack a b alo blo st.2.bi st.2.bj st.2.size)
      (alo + (ahi - alo)) :=
    extBack_ok a b _ _ _ hb1
  set bk := extBack a b alo blo st.2.bi st.2.bj st.2.size with hbk
  have hb2' : bestOK alo blo bhi ⟨bk.bi, bk.bj, bk.size⟩ (alo + (ahi - alo)) := hb2
  have hb3 : bestOK alo blo bhi
      ⟨bk.bi, bk.bj, extFwd a b ahi bhi bk.bi bk.bj ahi bk.size⟩ (alo + (ahi - alo)) :=
    extFwd_ok a b (by omega) ahi bk.size hb2'
  have hflm : flm a b b2jb alo ahi blo bhi =
      ⟨bk.bi, bk.bj, extFwd a b ahi bhi bk.bi bk.bj ahi bk.size⟩ := rfl
  rw [hflm] at hs ⊢
  rw [bestOK_mk] at hb3
  by_cases hcase : alo ≤ ahi
  · simp only [] at hs ⊢
    omega
  · exfalso
    have hempty : ahi - alo = 0 := by omega
    have hstval : st.2 = ⟨alo, blo, 0⟩ := by
      rw [hst, hempty]
      rfl
    have hbkval : bk = ⟨alo, blo, 0⟩ := by
      rw [hbk, hstval]
      cases halo : alo with
      | zero => rfl
      | succ n =>
        unfold extBack
        rw [if_neg]
        omega
    rw [hbkval] at hs
    simp only [] at hs
    cases hfuel : ahi with
    | zero => rw [hfuel] at hs; simp [extFwd] at hs
    | succ mm =>
      rw [hfuel] at hs
      unfold extFwd at hs
      rw [if_neg (by omega)] at hs
      omega

theorem mbSum_le_left (a b : List Char) (b2jb : Char → List Nat) :
    ∀ (fuel alo ahi blo bhi : Nat),
      mbSum a b b2jb fuel alo ahi blo bhi ≤ ahi - alo := by
  intro fuel
  induction fuel with
  | zero => intro alo ahi blo bhi; simp [mbSum]
  | succ n ih =>
    intro alo ahi blo bhi
    unfold mbSum
    dsimp only
    split
    · exact Nat.zero_le _
    · rename_i hsz
      have hb := flm_bounds a b b2jb alo ahi blo bhi (by omega)
      have hL : (if alo < (flm a b b2jb alo ahi blo bhi).bi ∧
            blo < (flm a b b2jb alo ahi blo bhi).bj then
          mbSum a b b2jb n alo (flm a b b2jb alo ahi blo bhi).bi blo
            (flm a b b2jb alo ahi blo bhi).bj else 0) ≤
          (flm a b b2jb alo ahi blo bhi).bi - alo := by
        split
        · exact ih _ _ _ _
        · exact Nat.zero_le _
      have hR : (if (flm a b b2jb alo ahi blo bhi).bi + (flm a b b2jb alo ahi blo bhi).size < ahi ∧
            (flm a b b2jb alo ahi blo bhi).bj + (flm a b b2jb alo ahi blo bhi).size < bhi then
          mbSum a b b2jb n ((flm a b b2jb alo ahi blo bhi).bi + (flm a b b2jb alo ahi blo bhi).size)
            ahi ((flm a b b2jb alo ahi blo bhi).bj + (flm a b b2jb alo ahi blo bhi).size) bhi
          else 0) ≤
          ahi - ((flm a b b2jb alo ahi blo bhi).bi + (flm a b b2jb alo ahi blo bhi).size) := by
        split
        · exact ih _ _ _ _
        · exact Nat.zero_le _
      omega

theorem mbSum_le_right (a b : List Char) (b2jb : Char → List Nat) :
    ∀ (fuel alo ahi blo bhi : Nat),
      mbSum a b b2jb fuel alo ahi blo bhi ≤ bhi - blo := by
  intro fuel
  induction fuel with
  | zero => intro alo ahi blo bhi; simp [mbSum]
  | succ n ih =>
    intro alo ahi blo bhi
    unfold mbSum
    dsimp only
    split
    · exact Nat.zero_le _
    · rename_i hsz
      have hb := flm_bounds a b b2jb alo ahi blo bhi (by omega)
      have hL : (if alo < (flm a b b2jb alo ahi blo bhi).bi ∧
            blo < (flm a b b2jb alo ahi blo bhi).bj then
          mbSum a b b2jb n alo (flm a b b2jb alo ahi blo bhi).bi blo
            (flm a b b2jb alo ahi blo bhi).bj else 0) ≤
          (flm a b b2jb alo ahi blo bhi).bj - blo := by
        split
        · exact ih _ _ _ _
        · exact Nat.zero_le _
      have hR : (if (flm a b b2jb alo ahi blo bhi).bi + (flm a b b2jb alo ahi blo bhi).size < ahi ∧
            (flm a b b2jb alo ahi blo bhi).bj + (flm a b b2jb alo ahi blo bhi).size < bhi then
          mbSum a b b2jb n ((flm a b b2jb alo ahi blo bhi).bi + (flm a b b2jb alo ahi blo bhi).size)
            ahi ((flm a b b2jb alo ahi blo bhi).bj + (flm a b b2jb alo ahi blo bhi).size) bhi
          else 0) ≤
          bhi - ((flm a b b2jb alo ahi blo bhi).bj + (flm a b b2jb alo ahi blo bhi).size) := by
        split
        · exact ih _ _ _ _
        · exact Nat.zero_le _
      omega

/-- The matched-character total is at most the length of either side. -/
theorem matchesTotal_le (a b : List Char) :
    matchesTotal a b ≤ a.length ∧ matchesTotal a b ≤ b.length := by
  constructor
  · have := mbSum_le_left a b (b2jMap b) (a.length + 1) 0 a.length 0 b.length
    simpa using this
  · have := mbSum_le_right a b (b2jMap b) (a.length + 1) 0 a.length 0 b.length
    simpa using this

/-- `ratio` is non-negative. -/
theorem ratioL_nonneg (a b : List Char) : 0 ≤ ratioL a b := by
  unfold ratioL
  split
  · norm_num
  · rename_i h
    apply div_nonneg
    · positivity
    · positivity

/-- `ratio` is at most 1: twice the matched total is at most the combined
length. -/
theorem ratioL_le_one (a b : List Char) : ratioL a b ≤ 1 := by
  unfold ratioL
  split
  · norm_num
  · rename_i h
    have hpos : (0 : ℚ) < (a.length : ℚ) + (b.length : ℚ) := by
      have hn : 0 < a.length + b.length := Nat.pos_of_ne_zero h
      exact_mod_cast hn
    rw [div_le_one hpos]
    have hm := matchesTotal_le a b
    have : (2 * matchesTotal a b : ℚ) ≤ ((a.length : ℚ) + (b.length : ℚ)) := by
      have hn : 2 * matchesTotal a b ≤ a.length + b.length := by omega
      exact_mod_cast hn
    simpa using this

/-- `similarity_score` always lies in `[0, 1]`. -/
theorem similarity_score_bounds (s1 s2 : String) :
    0 ≤ similarity_score s1 s2 ∧ similarity_score s1 s2 ≤ 1 :=
  ⟨ratioL_nonneg _ _, ratioL_le_one _ _⟩

/-! ## Claim C2 -/

theorem lexicalBest_bounds (ytClean : String) :
    ∀ (ts : List Track) (bt : Option Track) (bs : ℚ), 0 ≤ bs → bs ≤ 1 →
      ∀ bt' bs', lexicalBest ytClean ts bt bs = Except.ok (bt', bs') →
        0 ≤ bs' ∧ bs' ≤ 1 := by
  intro ts
  induction ts with
  | nil =>
    intro bt bs h0 h1 bt' bs' h
    unfold lexicalBest at h
    injection h with h
    injection h with h2 h3
    subst h3
    exact ⟨h0, h1⟩
  | cons t ts ih =>
    intro bt bs h0 h1 bt' bs' h
    unfold lexicalBest at h
    revert h
    cases hf : format_spotify_track_text t with
    | error e => intro h; cases h
    | ok spText =>
      dsimp only
      split
      · exact ih (some t) _ (similarity_score_bounds ytClean spText).1
          (similarity_score_bounds ytClean spText).2 bt' bs'
      · exact ih bt bs h0 h1 bt' bs'

/-- Modelled from the spec: clamp a cosine similarity to `[0, 1]`,
sending negative values to 0 (§4.5 semantic mode).  The repository's code
contains no such clamping. -/
def clamp01 (q : ℚ) : ℚ :=
  if q < 0 then 0 else if 1 < q then 1 else q

/-- Modelled from the spec: `match_by_embeddings` as §4.5 describes it,
identical to the code except that each semantic cosine similarity is
clamped to `[0, 1]` before the best-match and threshold steps. -/
def match_by_embeddings_clamped {V : Type} (ytTitle : String) (tracks : List Track)
    (threshold : ℚ) (encYt : String → Option V) (encSp : String → V)
    (cos : V → V → ℚ) : Except Unit (Option (Option Track × ℚ)) :=
  if tracks = [] then Except.ok none
  else
    match encYt (clean_youtube_title ytTitle) with
    | none =>
      match lexicalBest (clean_youtube_title ytTitle) tracks none 0 with
      | Except.error e => Except.error e
      | Except.ok best =>
        if threshold ≤ best.2 then Except.ok (some best) else Except.ok none
    | some ytEmb =>
      match formatAll tracks with
      | Except.error e => Except.error e
      | Except.ok texts =>
        let sims := texts.map fun tx => clamp01 (cos ytEmb (encSp tx))
        let bestScore := sims.getD (idxOfMax sims) 0
        if threshold ≤ bestScore then
          Except.ok (some (some (tracks.getD (idxOfMax sims) ⟨"", none, none⟩), bestScore))
        else Except.ok none

/-- C2 counterexample: the code does not clamp negative cosine
similarities to 0.  With one candidate, threshold 0 and cosine −1, the
code returns no match, while the spec's clamped scorer surfaces the
candidate with score 0. -/
theorem claim_C2_counterexample :
    match_by_embeddings (V := Unit) "t" [⟨"g1", some [some "A"], some "N"⟩] 0
        (fun _ => some ()) (fun _ => ()) (fun _ _ => -1) = Except.ok none ∧
      match_by_embeddings_clamped (V := Unit) "t" [⟨"g1", some [some "A"], some "N"⟩] 0
        (fun _ => some ()) (fun _ => ()) (fun _ _ => -1) =
        Except.ok (some (some ⟨"g1", some [some "A"], some "N"⟩, 0)) :=
  ⟨rfl, rfl⟩

/-- C2 as amended: every score `match_by_embeddings` returns lies in
`[0, 1]`, provided the cosine function is bounded in `[-1, 1]` (unit
vectors) and the threshold is non-negative; lexical scores are bounded
unconditionally, and negative cosines are rejected by the threshold test
rather than clamped to 0. -/
theorem claim_C2_amended_score_bounds {V : Type} (yt : String)
    (tracks : List Track) (thr : ℚ) (encYt : String → Option V)
    (encSp : String → V) (cos : V → V → ℚ)
    (hcos : ∀ v w, -1 ≤ cos v w ∧ cos v w ≤ 1) (hthr : 0 ≤ thr)
    (bt : Option Track) (s : ℚ)
    (hres : match_by_embeddings yt tracks thr encYt encSp cos =
      Except.ok (some (bt, s))) :
    0 ≤ s ∧ s ≤ 1 := by
  unfold match_by_embeddings at hres
  split at hres
  · simp at hres
  · revert hres
    cases henc : encYt (clean_youtube_title yt) with
    | none =>
      cases hlex : lexicalBest (clean_youtube_title yt) tracks none 0 with
      | error e => intro hres; cases hres
      | ok best =>
        dsimp only
        split
        · intro hres
          injection hres with h1
          injection h1 with h2
          subst h2
          exact lexicalBest_bounds _ tracks none 0 (le_refl 0) (by norm_num) bt s hlex
        · intro hres; simp at hres
    | some ytEmb =>
      cases hfa : formatAll tracks with
      | error e => intro hres; cases hres
      | ok texts =>
        dsimp only
        split
        · rename_i hth
          intro hres
          injection hres with h1
          injection h1 with h2
          injection h2 with hbt hs
          subst hs
          refine ⟨le_trans hthr hth, ?_⟩
          rw [List.getD_eq_getElem?_getD]
          cases hq : (texts.map fun tx => cos ytEmb (encSp tx))[idxOfMax
              (texts.map fun tx => cos ytEmb (encSp tx))]? with
          | none => simp
          | some q =>
            have hmem := List.getElem?_mem hq
            obtain ⟨tx, _, rfl⟩ := List.mem_map.mp hmem
            simpa using (hcos ytEmb (encSp tx)).2
        · intro hres; simp at hres

/-- Witness for C2's amended claim on the semantic path with cosine 1. -/
theorem claim_C2_amended_witness : (0 : ℚ) ≤ 1 ∧ (1 : ℚ) ≤ 1 :=
  claim_C2_amended_score_bounds (V := Unit) "t"
    [⟨"g1", some [some "A"], some "N"⟩] 0 (fun _ => some ()) (fun _ => ())
    (fun _ _ => 1) (fun _ _ => ⟨by norm_num, le_refl 1⟩) (le_refl 0)
    (some ⟨"g1", some [some "A"], some "N"⟩) 1 rfl

/-! ## Claim C4

`clean_youtube_title` is not idempotent: collapsing whitespace can create
a multi-word noise-keyword occurrence (`"full  album"` → `"full album"`,
which the second pass deletes).  The amended claim proves idempotence when
the first pass's output admits no further keyword match and the input has
no newline (a newline can likewise shield a bracket pair from the first
pass that the second pass then removes). -/

/-- No occurrence of `c₁` anywhere before an occurrence of `c₂`: exactly
the absence of the two-character subsequence. -/
def pairFree (c₁ c₂ : Char) (u : List Char) : Prop :=
  ¬ List.Sublist [c₁, c₂] u

theorem pairFree_of_sublist {c₁ c₂ : Char} {u v : List Char}
    (hsub : List.Sublist v u) (h : pairFree c₁ c₂ u) : pairFree c₁ c₂ v :=
  fun hc => h (hc.trans hsub)

theorem findClose_sublist {close : Char} :
    ∀ {l rest : List Char}, findClose close l = some rest → List.Sublist rest l := by
  intro l
  induction l with
  | nil => intro rest h; simp [findClose] at h
  | cons c cs ih =>
    intro rest h
    unfold findClose at h
    split at h
    · cases h; exact (List.sublist_cons_self _ _)
    · split at h
      · cases h
      · exact (ih h).trans (List.sublist_cons_self _ _)

theorem findClose_some_mem {close : Char} :
    ∀ {l rest : List Char}, findClose close l = some rest → close ∈ l := by
  intro l
  induction l with
  | nil => intro rest h; simp [findClose] at h
  | cons c cs ih =>
    intro rest h
    unfold findClose at h
    split at h
    · rename_i hc; rw [hc]; exact List.mem_cons_self _ _
    · split at h
      · cases h
      · exact List.mem_cons_of_mem _ (ih h)

theorem findClose_none_not_mem {close : Char} :
    ∀ {l : List Char}, (∀ x ∈ l, x ≠ '\n') → findClose close l = none →
      close ∉ l := by
  intro l
  induction l with
  | nil => intro _ _ h; cases h
  | cons c cs ih =>
    intro hnl h
    unfold findClose at h
    split at h
    · cases h
    · split at h
      · rename_i hne hnl2
        exact absurd hnl2 (hnl c (List.mem_cons_self _ _))
      · rename_i hne _
        intro hmem
        rcases List.mem_cons.mp hmem with rfl | hmem
        · exact hne rfl
        · exact ih (fun x hx => hnl x (List.mem_cons_of_mem _ hx)) h hmem

theorem removeDelimsF_sublist (opn close : Char) :
    ∀ (fuel : Nat) (l : List Char), List.Sublist (removeDelimsF opn close fuel l) l := by
  intro fuel
  induction fuel with
  | zero => intro l; exact List.Sublist.refl _
  | succ n ih =>
    intro l
    match l with
    | [] => exact List.Sublist.refl _
    | c :: rest =>
      unfold removeDelimsF
      split
      · split
        · rename_i hfc
          exact ((ih _).trans (findClose_sublist hfc)).trans
            (List.sublist_cons_self _ _)
        · exact List.Sublist.cons₂ _ (ih rest)
      · exact List.Sublist.cons₂ _ (ih rest)

/-- Eliminate a two-character subsequence of a cons. -/
theorem pair_sublist_cons {x y c : Char} {w : List Char}
    (h : List.Sublist [x, y] (c :: w)) :
    (x = c ∧ List.Sublist [y] w) ∨ List.Sublist [x, y] w := by
  cases h with
  | cons _ h => exact Or.inr h
  | cons₂ _ h => exact Or.inl ⟨rfl, h⟩

/-- The output of the bracket-removal pass is pair-free on newline-free
input: every opening delimiter left behind has no closing delimiter after
it. -/
theorem removeDelimsF_pairFree (opn close : Char) :
    ∀ (fuel : Nat) (l : List Char), l.length ≤ fuel →
      (∀ x ∈ l, x ≠ '\n') →
      pairFree opn close (removeDelimsF opn close fuel l) := by
  intro fuel
  induction fuel with
  | zero =>
    intro l hl _
    have : l = [] := List.length_eq_zero.mp (Nat.le_zero.mp hl)
    subst this
    intro hc
    simp [removeDelimsF] at hc
  | succ n ih =>
    intro l hl hnl
    match l with
    | [] =>
      intro hc
      simp [removeDelimsF] at hc
    | c :: rest =>
      unfold removeDelimsF
      split
      · rename_i hop
        split
        · rename_i rest' hfc
          apply ih rest'
          · have := (findClose_sublist hfc).length_le
            simp at hl
            omega
          · intro x hx
            exact hnl x (List.mem_cons_of_mem _
              ((findClose_sublist hfc).mem hx))
        · rename_i hfc
          intro hc
          rcases pair_sublist_cons hc with ⟨hx, hy⟩ | hc2
          · have hclose : close ∉ rest :=
              findClose_none_not_mem
                (fun x hx => hnl x (List.mem_cons_of_mem _ hx)) hfc
            have : close ∈ removeDelimsF opn close n rest :=
              List.singleton_sublist.mp hy
            exact hclose ((removeDelimsF_sublist opn close n rest).mem this)
          · exact ih rest (by simp at hl; omega)
              (fun x hx => hnl x (List.mem_cons_of_mem _ hx)) hc2
      · rename_i hop
        intro hc
        rcases pair_sublist_cons hc with ⟨hx, _⟩ | hc2
        · exact hop hx.symm
        · exact ih rest (by simp at hl; omega)
            (fun x hx => hnl x (List.mem_cons_of_mem _ hx)) hc2

/-- On a pair-free list the bracket-removal pass is the identity. -/
theorem removeDelimsF_id (opn close : Char) :
    ∀ (fuel : Nat) (l : List Char), pairFree opn close l →
      removeDelimsF opn close fuel l = l := by
  intro fuel
  induction fuel with
  | zero => intro l _; rfl
  | succ n ih =>
    intro l hpf
    match l with
    | [] => rfl
    | c :: rest =>
      unfold removeDelimsF
      split
      · rename_i hop
        split
        · rename_i rest' hfc
          exfalso
          apply hpf
          subst hop
          exact List.Sublist.cons₂ _ (List.singleton_sublist.mpr (findClose_some_mem hfc))
        · rw [ih rest (pairFree_of_sublist (List.sublist_cons_self _ _) hpf)]
      · rw [ih rest (pairFree_of_sublist (List.sublist_cons_self _ _) hpf)]

theorem matchPat_sublist {ps : List PatCh} :
    ∀ {l : List Char} {c : Char} {rest : List Char},
      matchPat ps l = some (c, rest) → List.Sublist rest l := by
  induction ps with
  | nil => intro l c rest h; simp [matchPat] at h
  | cons p ps ih =>
    intro l c rest h
    match l with
    | [] => simp [matchPat] at h
    | x :: xs =>
      match ps, p with
      | [], PatCh.lit d =>
        simp only [matchPat] at h
        split at h
        · cases h; exact List.sublist_cons_self _ _
        · cases h
      | [], PatCh.anyCh =>
        simp only [matchPat] at h
        split at h
        · cases h
        · cases h; exact List.sublist_cons_self _ _
      | q :: qs, PatCh.lit d =>
        simp only [matchPat] at h
        split at h
        · exact (ih h).trans (List.sublist_cons_self _ _)
        · cases h
      | q :: qs, PatCh.anyCh =>
        simp only [matchPat] at h
        split at h
        · cases h
        · exact (ih h).trans (List.sublist_cons_self _ _)

theorem subKwAux_sublist (pat : List PatCh) :
    ∀ (fuel : Nat) (prev : Option Char) (l : List Char),
      List.Sublist (subKwAux pat fuel prev l) l := by
  intro fuel
  induction fuel with
  | zero => intro prev l; exact List.Sublist.refl _
  | succ n ih =>
    intro prev l
    match l with
    | [] => exact List.Sublist.refl _
    | x :: xs =>
      unfold subKwAux
      split
      · split
        · rename_i last rest hm
          split
          · exact ((ih _ rest).trans (matchPat_sublist hm))
          · exact List.Sublist.cons₂ _ (ih _ xs)
        · exact List.Sublist.cons₂ _ (ih _ xs)
      · exact List.Sublist.cons₂ _ (ih _ xs)

theorem subKw_sublist (kw : List Char) (l : List Char) :
    List.Sublist (subKw kw l) l :=
  subKwAux_sublist _ _ _ _

theorem foldKw_sublist :
    ∀ (kws : List (List Char)) (u : List Char),
      List.Sublist (kws.foldl (fun acc kw => subKw kw acc) u) u := by
  intro kws
  induction kws with
  | nil => intro u; exact List.Sublist.refl _
  | cons kw kws ih =>
    intro u
    exact (ih (subKw kw u)).trans (subKw_sublist kw u)

/-- Reflect a two-character subsequence through a `map`. -/
theorem pair_sublist_map {f : Char → Char} {x y : Char} {u : List Char}
    (h : List.Sublist [x, y] (u.map f)) :
    ∃ x' y', List.Sublist [x', y'] u ∧ f x' = x ∧ f y' = y := by
  obtain ⟨l'', hsub, heq⟩ := List.sublist_map_iff.mp h
  match l'', heq with
  | [x', y'], heq =>
    simp only [List.map_cons, List.map_nil] at heq
    injection heq with h1 h2
    injection h2 with h2 _
    exact ⟨x', y', hsub, h1.symm, h2.symm⟩

/-- Characters of the whitespace-collapsed list: a space or an original
character. -/
theorem collapseWsF_mem :
    ∀ (fuel : Nat) (u : List Char) (c : Char),
      c ∈ collapseWsF fuel u → c = ' ' ∨ c ∈ u := by
  intro fuel
  induction fuel with
  | zero => intro u c h; exact Or.inr h
  | succ n ih =>
    intro u c h
    match u with
    | [] => cases h
    | x :: xs =>
      unfold collapseWsF at h
      split at h
      · rcases List.mem_cons.mp h with rfl | h2
        · exact Or.inl rfl
        · rcases ih _ c h2 with h3 | h3
          · exact Or.inl h3
          · exact Or.inr (List.mem_cons_of_mem _
              ((List.dropWhile_suffix isSpaceCh).sublist.mem h3))
      · rcases List.mem_cons.mp h with rfl | h2
        · exact Or.inr (List.mem_cons_self _ _)
        · rcases ih _ c h2 with h3 | h3
          · exact Or.inl h3
          · exact Or.inr (List.mem_cons_of_mem _ h3)

/-- Reflect a two-character non-whitespace subsequence through whitespace
collapsing. -/
theorem pair_sublist_collapse {x y : Char}
    (hx : ¬ isSpaceCh x = true) (hy : ¬ isSpaceCh y = true) :
    ∀ (fuel : Nat) (u : List Char),
      List.Sublist [x, y] (collapseWsF fuel u) → List.Sublist [x, y] u := by
  intro fuel
  induction fuel with
  | zero => intro u h; exact h
  | succ n ih =>
    intro u h
    match u with
    | [] => simp [collapseWsF] at h
    | c :: rest =>
      unfold collapseWsF at h
      split at h
      · rcases pair_sublist_cons h with ⟨hxc, _⟩ | h2
        · exact absurd (hxc ▸ rfl) hx
        · exact ((ih _ h2).trans (List.dropWhile_suffix isSpaceCh).sublist).trans
            (List.sublist_cons_self _ _)
      · rcases pair_sublist_cons h with ⟨hxc, hyrest⟩ | h2
        · have hmem : y ∈ collapseWsF n rest := List.singleton_sublist.mp hyrest
          rcases collapseWsF_mem n rest y hmem with h3 | h3
          · exact absurd (h3 ▸ rfl) hy
          · subst hxc
            exact List.Sublist.cons₂ _ (List.singleton_sublist.mpr h3)
        · exact (ih _ h2).trans (List.sublist_cons_self _ _)

/-- `strip` keeps an infix of the original. -/
theorem stripStr_infix_self (l : List Char) : stripStr l <:+: l := by
  unfold stripStr
  obtain ⟨u, hu⟩ := List.dropWhile_suffix (l := l) isSpaceCh
  obtain ⟨v, hv⟩ :=
    List.dropWhile_suffix (l := (l.dropWhile isSpaceCh).reverse) isSpaceCh
  refine ⟨u, v.reverse, ?_⟩
  have hd : l.dropWhile isSpaceCh =
      ((l.dropWhile isSpaceCh).reverse.dropWhile isSpaceCh).reverse ++ v.reverse := by
    have h := congrArg List.reverse hv
    rw [List.reverse_append, List.reverse_reverse] at h
    exact h.symm
  rw [List.append_assoc, ← hd, hu]

theorem sep1_eq {c t : Char} (ht : t ≠ '-') :
    (if c = '|' then '-' else c) = t → c = t := by
  split
  · intro h; exact absurd h.symm ht
  · exact id

theorem sep2_eq {c t : Char} (ht : t ≠ '-') :
    (if c = '•' ∨ c = '●' then '-' else c) = t → c = t := by
  split
  · intro h; exact absurd h.symm ht
  · exact id

theorem map_self_id {f : Char → Char} :
    ∀ (l : List Char), (∀ c ∈ l, f c = c) → l.map f = l := by
  intro l
  induction l with
  | nil => intro _; rfl
  | cons c cs ih =>
    intro h
    simp only [List.map_cons]
    rw [h c (List.mem_cons_self _ _), ih (fun x hx => h x (List.mem_cons_of_mem _ hx))]

/-- The separator replacement leaves neither pipes nor bullets behind. -/
theorem replaceSeps_no_seps (u : List Char) :
    ∀ c ∈ replaceSeps u, c ≠ '|' ∧ c ≠ '•' ∧ c ≠ '●' := by
  intro c hc
  unfold replaceSeps at hc
  rw [List.mem_map] at hc
  obtain ⟨d, hd, hdc⟩ := hc
  rw [List.mem_map] at hd
  obtain ⟨e, _, hed⟩ := hd
  subst hdc
  subst hed
  by_cases h1 : e = '|' <;> by_cases h2 : (if e = '|' then '-' else e) = '•' ∨
      (if e = '|' then '-' else e) = '●' <;>
    simp_all

/-- With no pipes or bullets present, the separator replacement is the
identity. -/
theorem replaceSeps_id (u : List Char)
    (h : ∀ c ∈ u, c ≠ '|' ∧ c ≠ '•' ∧ c ≠ '●') : replaceSeps u = u := by
  unfold replaceSeps
  rw [map_self_id (u.map fun c => if c = '|' then '-' else c) ?inner,
    map_self_id u ?outer]
  case outer =>
    intro c hc
    obtain ⟨h1, _, _⟩ := h c hc
    simp [h1]
  case inner =>
    intro c hc
    rw [List.mem_map] at hc
    obtain ⟨e, he, hec⟩ := hc
    obtain ⟨h1, h2, h3⟩ := h e he
    subst hec
    simp [h1, h2, h3]

/-- A pair-free property transfers through the separator replacement when
neither target character is a hyphen (nothing else maps onto it). -/
theorem pairFree_replaceSeps {x y : Char} (hx : x ≠ '-') (hy : y ≠ '-')
    {u : List Char} (h : pairFree x y u) : pairFree x y (replaceSeps u) := by
  intro hc
  unfold replaceSeps at hc
  obtain ⟨x1, y1, hsub1, hx1, hy1⟩ := pair_sublist_map hc
  obtain ⟨x2, y2, hsub2, hx2, hy2⟩ := pair_sublist_map hsub1
  have hx1' : x1 = x := sep2_eq hx hx1
  have hy1' : y1 = y := sep2_eq hy hy1
  have hx2' : x2 = x := sep1_eq hx (hx1' ▸ hx2)
  have hy2' : y2 = y := sep1_eq hy (hy1' ▸ hy2)
  apply h
  rw [← hx2', ← hy2']
  exact hsub2

/-- No two adjacent whitespace characters. -/
def noTwoSpace (a b : Char) : Prop :=
  ¬(isSpaceCh a = true ∧ isSpaceCh b = true)

/-- Every whitespace character the collapse keeps is the single space it
inserts. -/
theorem collapseWsF_space_eq :
    ∀ (fuel : Nat) (u : List Char) (c : Char), c ∈ collapseWsF fuel u →
      u.length ≤ fuel → isSpaceCh c = true → c = ' ' := by
  intro fuel
  induction fuel with
  | zero =>
    intro u c hc hl _
    have : u = [] := List.length_eq_zero.mp (Nat.le_zero.mp hl)
    subst this
    cases hc
  | succ n ih =>
    intro u c hc hl hsp
    match u with
    | [] => cases hc
    | x :: xs =>
      unfold collapseWsF at hc
      split at hc
      · rcases List.mem_cons.mp hc with rfl | h2
        · rfl
        · refine ih _ c h2 ?_ hsp
          have := (List.dropWhile_suffix isSpaceCh :
            xs.dropWhile isSpaceCh <:+ xs).sublist.length_le
          simp at hl
          omega
      · rcases List.mem_cons.mp hc with rfl | h2
        · rename_i hns; exact absurd hsp hns
        · exact ih _ c h2 (by simp at hl; omega) hsp

/-- The head the collapse produces after a whitespace run is not
whitespace. -/
theorem collapseWsF_drop_head :
    ∀ (fuel : Nat) (u : List Char) (y : Char),
      (collapseWsF fuel (u.dropWhile isSpaceCh)).head? = some y →
      isSpaceCh y = false := by
  intro fuel u y h
  cases hd : u.dropWhile isSpaceCh with
  | nil =>
    rw [hd] at h
    cases fuel <;> simp [collapseWsF] at h
  | cons d ds =>
    have hdns : isSpaceCh d = false := by
      have h' := List.head_dropWhile_not isSpaceCh u
      rw [hd] at h'
      simpa using h' (by simp)
    rw [hd] at h
    cases fuel with
    | zero =>
      simp only [collapseWsF] at h
      injection h with h
      rwa [← h]
    | succ n =>
      unfold collapseWsF at h
      rw [if_neg (by simp [hdns])] at h
      injection h with h
      rwa [← h]

/-- The collapsed list has no two adjacent whitespace characters. -/
theorem collapseWsF_chain :
    ∀ (fuel : Nat) (u : List Char), u.length ≤ fuel →
      List.Chain' noTwoSpace (collapseWsF fuel u) := by
  intro fuel
  induction fuel with
  | zero =>
    intro u hl
    have : u = [] := List.length_eq_zero.mp (Nat.le_zero.mp hl)
    subst this
    simp [collapseWsF]
  | succ n ih =>
    intro u hl
    match u with
    | [] => simp [collapseWsF]
    | x :: xs =>
      unfold collapseWsF
      split
      · rw [List.chain'_cons']
        constructor
        · intro y hy
          have := collapseWsF_drop_head n xs y hy
          intro hcon
          rw [this] at hcon
          exact absurd hcon.2 (by simp)
        · refine ih _ ?_
          have := (List.dropWhile_suffix isSpaceCh :
            xs.dropWhile isSpaceCh <:+ xs).sublist.length_le
          simp at hl
          omega
      · rw [List.chain'_cons']
        constructor
        · rename_i hns
          intro y _ hcon
          exact hns hcon.1
        · exact ih _ (by simp at hl; omega)

/-- A list whose whitespace is exactly isolated single spaces is a
fixpoint of whitespace collapsing. -/
theorem collapseWsF_fix :
    ∀ (fuel : Nat) (u : List Char), u.length ≤ fuel →
      List.Chain' noTwoSpace u → (∀ c ∈ u, isSpaceCh c = true → c = ' ') →
      collapseWsF fuel u = u := by
  intro fuel
  induction fuel with
  | zero =>
    intro u hl _ _
    have : u = [] := List.length_eq_zero.mp (Nat.le_zero.mp hl)
    subst this
    rfl
  | succ n ih =>
    intro u hl hch hsp
    match u with
    | [] => rfl
    | x :: xs =>
      unfold collapseWsF
      split
      · rename_i hx
        have hxsp : x = ' ' := hsp x (List.mem_cons_self _ _) hx
        have hdrop : xs.dropWhile isSpaceCh = xs := by
          cases hxs : xs with
          | nil => rfl
          | cons d ds =>
            have hd : ¬ isSpaceCh d = true := by
              have := (List.chain'_cons.mp (hxs ▸ hch)).1
              intro hcon
              exact this ⟨hx, hcon⟩
            simp [List.dropWhile_cons_of_neg, hd]
        rw [hdrop, hxsp]
        have hxs' : List.Chain' noTwoSpace xs := (List.chain'_cons'.mp hch).2
        rw [ih xs (by simp at hl; omega) hxs'
          (fun c hc hc2 => hsp c (List.mem_cons_of_mem _ hc) hc2)]
      · have hxs' : List.Chain' noTwoSpace xs := (List.chain'_cons'.mp hch).2
        rw [ih xs (by simp at hl; omega) hxs'
          (fun c hc hc2 => hsp c (List.mem_cons_of_mem _ hc) hc2)]

/-- `strip` is idempotent. -/
theorem stripStr_idem (l : List Char) : stripStr (stripStr l) = stripStr l := by
  have hrw : ∀ u : List Char, stripStr u =
      List.rdropWhile isSpaceCh (u.dropWhile isSpaceCh) := fun u => rfl
  rw [hrw, hrw]
  have h1 : (List.rdropWhile isSpaceCh (l.dropWhile isSpaceCh)).dropWhile isSpaceCh =
      List.rdropWhile isSpaceCh (l.dropWhile isSpaceCh) := by
    cases hw2 : List.rdropWhile isSpaceCh (l.dropWhile isSpaceCh) with
    | nil => rfl
    | cons x w' =>
      have hpre : List.rdropWhile isSpaceCh (l.dropWhile isSpaceCh) <+:
          l.dropWhile isSpaceCh := List.rdropWhile_prefix isSpaceCh _
      rw [hw2] at hpre
      obtain ⟨t, ht⟩ := hpre
      have hlen : 0 < (l.dropWhile isSpaceCh).length := by
        rw [← ht]
        simp
      have hx0 : (l.dropWhile isSpaceCh).get ⟨0, hlen⟩ = x := by
        have hcons : l.dropWhile isSpaceCh = x :: (w' ++ t) := by
          rw [← ht]
          rfl
        simp [hcons]
      have hnp := List.dropWhile_get_zero_not isSpaceCh l hlen
      rw [hx0] at hnp
      rw [List.dropWhile_cons_of_neg hnp]
  rw [h1, List.rdropWhile_idempotent]

/-- A no-op keyword pass keeps the whole fold a no-op. -/
theorem foldKw_fix (u : List Char) :
    ∀ (kws : List (List Char)), (∀ kw ∈ kws, subKw kw u = u) →
      kws.foldl (fun acc kw => subKw kw acc) u = u := by
  intro kws
  induction kws with
  | nil => intro _; rfl
  | cons kw kws ih =>
    intro h
    have h0 : subKw kw u = u := h kw (List.mem_cons_self _ _)
    show kws.foldl (fun acc kw => subKw kw acc) (subKw kw u) = u
    rw [h0]
    exact ih (fun k hk => h k (List.mem_cons_of_mem _ hk))

/-- The space-collapse invariants survive stripping, stated over a plain
variable so that instantiation stays shallow. -/
theorem chain_stripCollapse (u : List Char) :
    List.Chain' noTwoSpace (stripStr (collapseWs u)) :=
  List.Chain'.infix (collapseWsF_chain (u.length + 1) u (Nat.le_succ _))
    (stripStr_infix_self _)

/-- Every whitespace character surviving collapse-then-strip is a plain space. -/
theorem space_stripCollapse (u : List Char) :
    ∀ c ∈ stripStr (collapseWs u), isSpaceCh c = true → c = ' ' := fun c hc hsp =>
  collapseWsF_space_eq _ u c ((stripStr_infix_self (collapseWs u)).sublist.mem hc)
    (Nat.le_succ _) hsp

/-- Characters of collapse-then-strip output are spaces or input characters. -/
theorem mem_stripCollapse (u : List Char) :
    ∀ c ∈ stripStr (collapseWs u), c = ' ' ∨ c ∈ u := fun c hc =>
  collapseWsF_mem _ u c ((stripStr_infix_self (collapseWs u)).sublist.mem hc)

/-- An adjacent pair of non-space characters in collapse-then-strip output
already occurs in the input. -/
theorem pair_stripCollapse {x y : Char} (hx : ¬ isSpaceCh x = true)
    (hy : ¬ isSpaceCh y = true) (u : List Char)
    (h : List.Sublist [x, y] (stripStr (collapseWs u))) : List.Sublist [x, y] u :=
  pair_sublist_collapse hx hy _ u (h.trans (stripStr_infix_self (collapseWs u)).sublist)

/-- Collapse-then-strip output is a fixed point of collapsing. -/
theorem collapse_stripCollapse (u : List Char) :
    collapseWs (stripStr (collapseWs u)) = stripStr (collapseWs u) :=
  collapseWsF_fix _ _ (Nat.le_succ _) (chain_stripCollapse u) (space_stripCollapse u)

/-- C4 counterexample: normalization is not idempotent.  For
`"full  album"` the first pass only collapses the double space (neither
`full` nor `album` is a keyword on its own and `full album` needs a single
space to match), and the second pass then deletes the whole title. -/
theorem claim_C4_counterexample :
    clean_youtube_title (clean_youtube_title "full  album") ≠
        clean_youtube_title "full  album" ∧
      clean_youtube_title "full  album" = "full album" ∧
      clean_youtube_title "full album" = "" := by
  refine ⟨?_, by decide, by decide⟩
  decide

set_option linter.constructorNameAsVariable false in
/-- C4 as amended: normalization is idempotent for every newline-free
title whose normalized form admits no further noise-keyword match (the
counterexample shows the keyword condition is necessary: collapsing
whitespace may create a multi-word keyword occurrence; a newline can
similarly shield a bracket pair from the first pass only). -/
theorem claim_C4_amended_idempotent (s : String)
    (hnl : ∀ c ∈ s.toList, c ≠ '\n')
    (hkw : ∀ kw ∈ noiseKeywords, subKw kw (cleanTitleL s.toList) = cleanTitleL s.toList) :
    clean_youtube_title (clean_youtube_title s) = clean_youtube_title s := by
  have hmain : cleanTitleL (cleanTitleL s.toList) = cleanTitleL s.toList := by
    have hnl1 : ∀ c ∈ removeDelims '[' ']' s.toList, c ≠ '\n' := fun c hc =>
      hnl c ((removeDelimsF_sublist '[' ']' _ _).mem hc)
    have pfb1 : pairFree '[' ']' (removeDelims '[' ']' s.toList) :=
      removeDelimsF_pairFree '[' ']' _ _ (Nat.le_succ _) hnl
    have pfb2 : pairFree '[' ']'
        (removeDelims '(' ')' (removeDelims '[' ']' s.toList)) :=
      pairFree_of_sublist (removeDelimsF_sublist '(' ')' _ _) pfb1
    have pfp2 : pairFree '(' ')'
        (removeDelims '(' ')' (removeDelims '[' ']' s.toList)) :=
      removeDelimsF_pairFree '(' ')' _ _ (Nat.le_succ _) hnl1
    have pfb3 : pairFree '[' ']'
        (noiseKeywords.foldl (fun acc kw => subKw kw acc)
          (removeDelims '(' ')' (removeDelims '[' ']' s.toList))) :=
      pairFree_of_sublist (foldKw_sublist _ _) pfb2
    have pfp3 : pairFree '(' ')'
        (noiseKeywords.foldl (fun acc kw => subKw kw acc)
          (removeDelims '(' ')' (removeDelims '[' ']' s.toList))) :=
      pairFree_of_sublist (foldKw_sublist _ _) pfp2
    have pfb4 : pairFree '[' ']'
        (replaceSeps (noiseKeywords.foldl (fun acc kw => subKw kw acc)
          (removeDelims '(' ')' (removeDelims '[' ']' s.toList)))) :=
      pairFree_replaceSeps (by decide) (by decide) pfb3
    have pfp4 : pairFree '(' ')'
        (replaceSeps (noiseKeywords.foldl (fun acc kw => subKw kw acc)
          (removeDelims '(' ')' (removeDelims '[' ']' s.toList)))) :=
      pairFree_replaceSeps (by decide) (by decide) pfp3
    obtain ⟨u4, hu4⟩ : ∃ u4, replaceSeps (noiseKeywords.foldl (fun acc kw => subKw kw acc)
      (removeDelims '(' ')' (removeDelims '[' ']' s.toList))) = u4 := ⟨_, rfl⟩
    rw [hu4] at pfb4 pfp4
    have hTdef : cleanTitleL s.toList = stripStr (collapseWs u4) := by
      show stripStr (collapseWs (replaceSeps (noiseKeywords.foldl
        (fun acc kw => subKw kw acc)
          (removeDelims '(' ')' (removeDelims '[' ']' s.toList))))) =
        stripStr (collapseWs u4)
      rw [hu4]
    have pfbT : pairFree '[' ']' (cleanTitleL s.toList) := by
      rw [hTdef]
      exact fun hc => pfb4 (pair_stripCollapse (by decide) (by decide) u4 hc)
    have pfpT : pairFree '(' ')' (cleanTitleL s.toList) := by
      rw [hTdef]
      exact fun hc => pfp4 (pair_stripCollapse (by decide) (by decide) u4 hc)
    have noSepT : ∀ c ∈ cleanTitleL s.toList, c ≠ '|' ∧ c ≠ '•' ∧ c ≠ '●' := by
      intro c hc
      rw [hTdef] at hc
      rcases mem_stripCollapse u4 c hc with rfl | hc4
      · exact ⟨by decide, by decide, by decide⟩
      · rw [← hu4] at hc4
        exact replaceSeps_no_seps _ c hc4
    have chainT : List.Chain' noTwoSpace (cleanTitleL s.toList) := by
      rw [hTdef]
      exact chain_stripCollapse u4
    have spaceT : ∀ c ∈ cleanTitleL s.toList, isSpaceCh c = true → c = ' ' := by
      rw [hTdef]
      exact space_stripCollapse u4
    have st1 : removeDelims '[' ']' (cleanTitleL s.toList) = cleanTitleL s.toList :=
      removeDelimsF_id '[' ']' _ _ pfbT
    have st2 : removeDelims '(' ')' (cleanTitleL s.toList) = cleanTitleL s.toList :=
      removeDelimsF_id '(' ')' _ _ pfpT
    have st3 : noiseKeywords.foldl (fun acc kw => subKw kw acc)
        (cleanTitleL s.toList) = cleanTitleL s.toList :=
      foldKw_fix _ _ hkw
    have st4 : replaceSeps (cleanTitleL s.toList) = cleanTitleL s.toList :=
      replaceSeps_id _ noSepT
    have st5 : collapseWs (cleanTitleL s.toList) = cleanTitleL s.toList := by
      rw [hTdef]
      exact collapse_stripCollapse u4
    have st6 : stripStr (cleanTitleL s.toList) = cleanTitleL s.toList := by
      rw [hTdef]
      exact stripStr_idem _
    show stripStr (collapseWs (replaceSeps
      (noiseKeywords.foldl (fun acc kw => subKw kw acc)
        (removeDelims '(' ')' (removeDelims '[' ']' (cleanTitleL s.toList)))))) =
      cleanTitleL s.toList
    rw [st1, st2, st3, st4, st5, st6]
  unfold clean_youtube_title
  have h0 : ∀ l : List Char, (String.mk l).toList = l := fun _ => rfl
  rw [h0 (cleanTitleL s.toList), hmain]

/-- Witness for C4's amended claim at a concrete stable title. -/
theorem claim_C4_amended_witness :
    clean_youtube_title (clean_youtube_title "Hello World") =
      clean_youtube_title "Hello World" :=
  claim_C4_amended_idempotent "Hello World" (by decide) (by decide)

/-! ## Claim C9

`similarity_score` is not symmetric: `SequenceMatcher.ratio()` depends on
the argument order (`"ab"`/`"bacb"` scores 2/3 one way and 1/3 the other).
The amended claim proves the true invariances: the score is unchanged and
equals 1 when the two case-folded inputs coincide (for inputs shorter than
200 characters, where difflib's autojunk heuristic cannot drop popular
characters from the `b2j` index).  The proof tracks the `j2len` dynamic
program: with a complete `b2j`, after `m` rows the best block is the full
diagonal prefix `(0, 0, m)` and the chain map is bounded by the diagonal. -/

theorem rowBestFold_noupdate (i : Nat) (f : Nat → Nat) :
    ∀ (js : List Nat) (b : FlmBest), (∀ j ∈ js, prevLen f j + 1 ≤ b.size) →
      rowBestFold i f js b = b := by
  intro js
  induction js with
  | nil => intro b _; rfl
  | cons j t ih =>
    intro b h
    have hj : prevLen f j + 1 ≤ b.size := h j (List.mem_cons_self j t)
    simp only [rowBestFold]
    rw [if_neg (Nat.not_lt.2 hj)]
    exact ih b fun x hx => h x (List.mem_cons_of_mem j hx)

theorem rowBestFold_append (i : Nat) (f : Nat → Nat) :
    ∀ (t₁ t₂ : List Nat) (b : FlmBest),
      rowBestFold i f (t₁ ++ t₂) b = rowBestFold i f t₂ (rowBestFold i f t₁ b) := by
  intro t₁
  induction t₁ with
  | nil => intro t₂ b; rfl
  | cons j t ih =>
    intro t₂ b
    simp only [List.cons_append, rowBestFold]
    exact ih t₂ _

theorem b2jMap_pairwise (b : List Char) (c : Char) :
    List.Pairwise (· < ·) (b2jMap b c) := by
  unfold b2jMap
  split
  · exact List.Pairwise.nil
  · unfold indicesOf
    exact List.Pairwise.filter _ (List.pairwise_lt_range _)

theorem mem_b2jMap_self (a : List Char) (hlen : a.length < 200) (m : Nat)
    (hm : m < a.length) : m ∈ b2jMap a (a.getD m ' ') := by
  unfold b2jMap
  rw [if_neg (by simp [isPopular]; omega)]
  unfold indicesOf
  simp [List.mem_filter, List.mem_range, hm]

theorem flmRows_append (a : List Char) (b2jb : Char → List Nat) (blo bhi : Nat)
    (t₁ t₂ : List Nat) (init : (Nat → Nat) × FlmBest) :
    flmRows a b2jb blo bhi (t₁ ++ t₂) init =
      flmRows a b2jb blo bhi t₂ (flmRows a b2jb blo bhi t₁ init) := by
  unfold flmRows
  exact List.foldl_append _ _ t₁ t₂

theorem flmRows_diag (a : List Char) (hlen : a.length < 200) :
    ∀ m, m ≤ a.length →
      ∃ f, flmRows a (b2jMap a) 0 a.length (List.range' 0 m)
            ((fun _ => 0), ⟨0, 0, 0⟩) = (f, ⟨0, 0, m⟩)
        ∧ prevLen f m = m ∧ (∀ j, prevLen f j ≤ j) ∧ (∀ j, prevLen f j ≤ m) := by
  intro m
  induction m with
  | zero =>
    intro _
    refine ⟨(fun _ => 0), rfl, rfl, ?_, ?_⟩ <;> intro j <;> cases j <;>
      simp [prevLen]
  | succ m ih =>
    intro hm
    obtain ⟨f, hrows, hfm, hfj, hfb⟩ := ih (Nat.le_of_succ_le hm)
    have hmn : m < a.length := hm
    have hsplit : List.range' 0 (m + 1) = List.range' 0 m ++ [m] := by
      rw [List.range'_concat]
      simp
    rw [hsplit, flmRows_append, hrows]
    -- one row step
    simp only [flmRows, List.foldl_cons, List.foldl_nil]
    set js := (b2jMap a (a.getD m ' ')).filter (fun j => decide (0 ≤ j ∧ j < a.length)) with hjs
    have hpw : List.Pairwise (· < ·) js :=
      List.Pairwise.filter _ (b2jMap_pairwise a _)
    have hmem : m ∈ js := by
      rw [hjs]
      simp only [List.mem_filter]
      exact ⟨mem_b2jMap_self a hlen m hmn, by simp [hmn]⟩
    obtain ⟨t₁, t₂, hdec⟩ := List.append_of_mem hmem
    have hpw' := hdec ▸ hpw
    rcases List.pairwise_append.1 hpw' with ⟨hp1, hp2, hp12⟩
    have ht₁ : ∀ x ∈ t₁, x < m := fun x hx =>
      hp12 x hx m (List.mem_cons_self m t₂)
    have ht₂ : ∀ y ∈ t₂, m < y := (List.pairwise_cons.1 hp2).1
    have hbf : rowBestFold m f js ⟨0, 0, m⟩ = ⟨0, 0, m + 1⟩ := by
      rw [hdec, rowBestFold_append]
      rw [rowBestFold_noupdate m f t₁ ⟨0, 0, m⟩
        (fun j hj => by
          have := hfj j
          have := ht₁ j hj
          simp only [FlmBest.mk.injEq]
          omega)]
      simp only [rowBestFold, hfm]
      rw [if_pos (by omega)]
      have hblk : (⟨m + 1 - (m + 1), m + 1 - (m + 1), m + 1⟩ : FlmBest) =
          ⟨0, 0, m + 1⟩ := by
        simp
      rw [hblk]
      exact rowBestFold_noupdate m f t₂ ⟨0, 0, m + 1⟩
        (fun j hj => by have := hfb j; simp only; omega)
    rw [hbf]
    refine ⟨rowNewLen f js, rfl, ?_, ?_, ?_⟩
    · show rowNewLen f js m = m + 1
      unfold rowNewLen
      rw [if_pos hmem, hfm]
    · intro j
      cases j with
      | zero => exact Nat.zero_le _
      | succ j =>
        show rowNewLen f js j ≤ j + 1
        unfold rowNewLen
        split
        · have := hfj j; omega
        · exact Nat.zero_le _
    · intro j
      cases j with
      | zero => exact Nat.zero_le _
      | succ j =>
        show rowNewLen f js j ≤ m + 1
        unfold rowNewLen
        split
        · have := hfb j; omega
        · exact Nat.zero_le _

theorem flm_self (a : List Char) (hlen : a.length < 200) :
    flm a a (b2jMap a) 0 a.length 0 a.length = ⟨0, 0, a.length⟩ := by
  obtain ⟨f, hrows, -, -, -⟩ := flmRows_diag a hlen a.length (le_refl _)
  simp only [flm, Nat.sub_zero]
  rw [hrows]
  have hback : extBack a a 0 0 0 0 a.length = ⟨0, 0, a.length⟩ := rfl
  rw [hback]
  have hext : extFwd a a a.length a.length 0 0 a.length a.length = a.length := by
    cases hn : a.length with
    | zero => rfl
    | succ t =>
      simp only [extFwd]
      rw [if_neg (fun h => by omega)]
  rw [hext]

theorem matchesTotal_self (a : List Char) (hlen : a.length < 200) :
    matchesTotal a a = a.length := by
  unfold matchesTotal
  simp only [mbSum]
  rw [flm_self a hlen]
  dsimp only
  by_cases h0 : a.length = 0
  · simp [h0]
  · rw [if_neg h0, if_neg (by omega), if_neg (by omega)]
    omega

theorem ratioL_self (l : List Char) (hlen : l.length < 200) : ratioL l l = 1 := by
  unfold ratioL
  split
  · rfl
  · rename_i h
    rw [matchesTotal_self l hlen]
    have h0 : l.length ≠ 0 := by omega
    have hcast : ((l.length : ℚ) + l.length) = 2 * (l.length : ℚ) := by ring
    rw [hcast]
    exact div_self (mul_ne_zero two_ne_zero (Nat.cast_ne_zero.2 h0))


/-- C9 counterexample: lexical scoring is not symmetric even for
equal-case inputs: `"ab"` against `"bacb"` scores 2/3, the reverse order
scores 1/3 (`find_longest_match` treats the two sequences differently). -/
theorem claim_C9_counterexample :
    similarity_score "ab" "bacb" ≠ similarity_score "bacb" "ab" ∧
      similarity_score "ab" "bacb" = 2/3 ∧ similarity_score "bacb" "ab" = 1/3 := by
  have h1 : similarity_score "ab" "bacb" = 2/3 := by
    unfold similarity_score ratioL
    rw [show matchesTotal (lowerStr "ab".toList) (lowerStr "bacb".toList) = 2 from by decide,
      show (lowerStr "ab".toList).length = 2 from by decide,
      show (lowerStr "bacb".toList).length = 4 from by decide]
    norm_num
  have h2 : similarity_score "bacb" "ab" = 1/3 := by
    unfold similarity_score ratioL
    rw [show matchesTotal (lowerStr "bacb".toList) (lowerStr "ab".toList) = 1 from by decide,
      show (lowerStr "bacb".toList).length = 4 from by decide,
      show (lowerStr "ab".toList).length = 2 from by decide]
    norm_num
  refine ⟨?_, h1, h2⟩
  rw [h1, h2]
  norm_num

/-- C9 as amended: when the two case-folded inputs are equal (the
situation the spec calls "equal-case inputs"), the score is indeed
order-independent and moreover equals 1.0, provided the strings are
shorter than 200 characters (beyond that difflib's autojunk heuristic
applies; symmetry for unequal strings fails - see the counterexample). -/
theorem claim_C9_amended_symm_reflexive (s1 s2 : String)
    (h : lowerStr s1.toList = lowerStr s2.toList)
    (hlen : s2.toList.length < 200) :
    similarity_score s1 s2 = similarity_score s2 s1 ∧ similarity_score s1 s2 = 1 := by
  unfold similarity_score
  rw [h]
  refine ⟨rfl, ratioL_self _ ?_⟩
  unfold lowerStr
  rw [List.length_map]
  exact hlen

/-- Witness for C9's amended claim at concrete inputs of differing case. -/
theorem claim_C9_amended_witness :
    (lowerStr "AB".toList = lowerStr "ab".toList ∧ "ab".toList.length < 200) ∧
      (similarity_score "AB" "ab" = similarity_score "ab" "AB" ∧
        similarity_score "AB" "ab" = 1) :=
  ⟨⟨by decide, by decide⟩,
    claim_C9_amended_symm_reflexive "AB" "ab" (by decide) (by decide)⟩


end Migrate
